import Mathlib

/-!
Shallow embedding of the pressroomhq SEO remediation pipeline
(src/services/seo_pipeline.py) together with the record-creation defaults
of the Run record (src/models.py, src/api/seo_pr.py).

Strings are modelled as lists of characters so that substring search,
first-occurrence replacement and whitespace normalisation can be stated
and executed precisely.  External collaborators (the Anthropic client,
json.loads, git, gh, the network) are passed in as explicit environment
parameters; every observable side effect (run-record updates, issued
version-control commands) is returned as part of the result.
-/

namespace SeoPipeline

/-- Character strings, modelled as lists of characters. -/
abbrev Str := List Char

/-- Whitespace characters recognised by Python str.split and str.strip. -/
def isWS (c : Char) : Bool :=
  c = ' ' || c = '\t' || c = '\n' || c = '\r' || c = '\x0b' || c = '\x0c'

/-- Split a string at the first occurrence of a needle: returns the text
before and after that occurrence.  An empty needle matches at position 0,
matching Python str.find / str.replace semantics. -/
def splitFirst (needle : Str) : Str → Option (Str × Str)
  | [] => if needle = [] then some ([], []) else none
  | c :: t =>
    if needle.isPrefixOf (c :: t) then some ([], (c :: t).drop needle.length)
    else
      match splitFirst needle t with
      | some (p, s) => some (c :: p, s)
      | none => none

/-- Whether a needle occurs as a contiguous substring of a haystack
(Python `in`). -/
def occursB (needle hay : Str) : Bool :=
  (splitFirst needle hay).isSome

/-- Replace the first occurrence of a needle (Python
str.replace with count 1); if the needle does not occur the haystack is
returned unchanged. -/
def replaceFirst (hay needle rep : Str) : Str :=
  match splitFirst needle hay with
  | some (p, s) => p ++ rep ++ s
  | none => hay

/-- Number of positions of the haystack at which the needle occurs
(counting overlapping occurrences; equal to non-overlapping counting
when the count is at most one). -/
def countOccur (needle : Str) : Str → Nat
  | [] => if needle = [] then 1 else 0
  | c :: t => (if needle.isPrefixOf (c :: t) then 1 else 0) + countOccur needle t

/-- Split on a separator character keeping empty fragments
(Python str.split with an explicit separator). -/
def splitOnChar (sep : Char) : Str → List Str
  | [] => [[]]
  | c :: t =>
    if c = sep then [] :: splitOnChar sep t
    else
      match splitOnChar sep t with
      | h :: r => (c :: h) :: r
      | [] => [[c]]

/-- Collapse every run of two or more spaces into a single space. -/
def squashSpaces : Str → Str
  | [] => []
  | [c] => [c]
  | a :: b :: t =>
    if a = ' ' && b = ' ' then squashSpaces (b :: t)
    else a :: squashSpaces (b :: t)

/-- Python whitespace normalisation, equal to joining str.split() by
single spaces: every whitespace character becomes a space, runs collapse
to one space, and leading and trailing whitespace is removed. -/
def collapseWS (s : Str) : Str :=
  let sq := squashSpaces (s.map (fun c => if isWS c then ' ' else c))
  ((sq.dropWhile (fun c => c = ' ')).reverse.dropWhile (fun c => c = ' ')).reverse

/-- Python str.strip(). -/
def stripWS (s : Str) : Str :=
  ((s.dropWhile isWS).reverse.dropWhile isWS).reverse

/-- Python str.rstrip(). -/
def rstripWS (s : Str) : Str :=
  (s.reverse.dropWhile isWS).reverse

/-- Python str.lower(). -/
def lowerS (s : Str) : Str := s.map Char.toLower

/-- Recursion core of replaceAll, structurally recursive on a character
budget that each step strictly consumes; the budget never runs out when
it starts at the haystack's length. -/
def replaceAllAux (needle rep : Str) : Nat → Str → Str
  | 0, hay => hay
  | _ + 1, [] => []
  | fuel + 1, c :: t =>
    if needle ≠ [] ∧ needle.isPrefixOf (c :: t) then
      rep ++ replaceAllAux needle rep fuel ((c :: t).drop needle.length)
    else
      c :: replaceAllAux needle rep fuel t

/-- Python str.replace with no count: replace every (non-overlapping,
left-to-right) occurrence.  A degenerate empty needle leaves the string
unchanged; the pipeline only calls this with non-empty literals. -/
def replaceAll (needle rep hay : Str) : Str :=
  replaceAllAux needle rep hay.length hay

/-- Index of the first occurrence of a character (Python str.find for a
one-character needle). -/
def firstIdxChar (c : Char) (s : Str) : Option Nat :=
  s.findIdx? (fun d => d = c)

/-- Index of the last occurrence of a character (Python str.rfind for a
one-character needle). -/
def lastIdxChar (c : Char) (s : Str) : Option Nat :=
  match (s.reverse.findIdx? (fun d => d = c)) with
  | some k => some (s.length - 1 - k)
  | none => none

/-- Python slice s[i:j]. -/
def sliceStr (s : Str) (i j : Nat) : Str :=
  (s.drop i).take (j - i)

/-- Start position of the last occurrence of a needle (Python str.rfind). -/
def lastOccurIdx (needle hay : Str) : Option Nat :=
  ((List.range (hay.length + 1)).filter
    (fun i => needle.isPrefixOf (hay.drop i))).getLast?

/-! Edit applicator (src/services/seo_pipeline.py, `_apply_edit`). -/

/-- A single file mutation directive: file path, anchor text, replacement. -/
structure Edit where
  file_path : Str
  search : Str
  replace : Str
deriving DecidableEq, Repr

/-- Failure modes of `_apply_edit`: ValueError on a missing field,
FileNotFoundError, ValueError when the anchor cannot be located. -/
inductive EditErr
  | missingField
  | fileNotFound
  | notFound
deriving DecidableEq, Repr

/-- Decidable equality for Except results, used to evaluate the model at
concrete inputs. -/
instance {e a : Type} [DecidableEq e] [DecidableEq a] : DecidableEq (Except e a) :=
  fun x y =>
    match x, y with
    | .error e1, .error e2 =>
      if h : e1 = e2 then .isTrue (by rw [h])
      else .isFalse (fun hh => by cases hh; exact h rfl)
    | .ok v1, .ok v2 =>
      if h : v1 = v2 then .isTrue (by rw [h])
      else .isFalse (fun hh => by cases hh; exact h rfl)
    | .error _, .ok _ => .isFalse (fun hh => by cases hh)
    | .ok _, .error _ => .isFalse (fun hh => by cases hh)

/-- The cloned repository workspace: an association list from file paths
to file contents. -/
abbrev Workspace := List (Str × Str)

/-- Read a file from the workspace. -/
def wsGet (w : Workspace) (p : Str) : Option Str :=
  (w.find? (fun kv => kv.1 = p)).map (fun kv => kv.2)

/-- Overwrite a file of the workspace with new content. -/
def wsSet (w : Workspace) (p v : Str) : Workspace :=
  w.map (fun kv => if kv.1 = p then (kv.1, v) else kv)

/-- Content-level core of `_apply_edit` (lines 370-388): if the anchor
occurs verbatim, replace its first occurrence; otherwise find the first
line whose whitespace-collapsed form contains the collapsed anchor and
replace the first occurrence of that line's text; otherwise fail. -/
def applyEditContent (content search rep : Str) : Except EditErr Str :=
  match splitFirst search content with
  | some _ => .ok (replaceFirst content search rep)
  | none =>
    match (splitOnChar '\n' content).find?
        (fun l => occursB (collapseWS search) (collapseWS l)) with
    | some l => .ok (replaceFirst content l rep)
    | none => .error .notFound

/-- `_apply_edit` (lines 357-388): validate the fields, read the file,
rewrite its content, write it back.  The write happens only after a
successful match, so a failing edit leaves the workspace untouched. -/
def apply_edit (w : Workspace) (e : Edit) : Except EditErr Workspace :=
  if e.file_path = [] ∨ e.search = [] then .error .missingField
  else
    match wsGet w e.file_path with
    | none => .error .fileNotFound
    | some content =>
      (applyEditContent content e.search e.replace).map
        (fun c2 => wsSet w e.file_path c2)

/-! Resilient parsing of LLM output (`_extract_json`, `_extract_edits`).
json.loads is an external library call; the embedding receives it as a
parameter returning the parsed value exactly when the candidate text is
valid JSON of the expected shape. -/

/-- Strip a leading byte-order mark and surrounding whitespace, then
remove wrapping code fences (lines 160-170 and 325-335 of the source,
identical in both parsers).  The error case models the uncaught
ValueError that Python's str.index raises when a fence-opening text
contains no newline. -/
def stripFences (text : Str) : Except Unit Str :=
  let t0 := stripWS (text.dropWhile (fun c => c = '\uFEFF'))
  if ("```".data).isPrefixOf t0 then
    match splitFirst ['\n'] t0 with
    | none => .error ()
    | some (_, rest) =>
      if ("```".data).isSuffixOf (rstripWS rest) then
        let r1 := rstripWS rest
        match lastOccurIdx ("```".data) r1 with
        | some i => .ok (stripWS (rstripWS (r1.take i)))
        | none => .ok (stripWS r1)
      else .ok (stripWS rest)
  else .ok t0

/-- `_extract_edits` (lines 323-354): fence strip, direct parse when the
text starts with a bracket, then first-bracket-to-last-bracket
extraction; on total failure it logs a warning and returns the empty
list (it does not raise). -/
def extract_edits (jp : Str → Option (List Edit)) (text : Str) :
    Except Unit (List Edit) := do
  let t ← stripFences text
  let direct : Option (List Edit) :=
    if t.head? = some '[' then jp t else none
  match direct with
  | some es => return es
  | none =>
    match firstIdxChar '[' t, lastIdxChar ']' t with
    | some i, some j =>
      if i < j then
        match jp (sliceStr t i (j + 1)) with
        | some es => return es
        | none => return []
      else return []
    | _, _ => return []

/-- Shape of a parse failure of `_extract_json`: either the uncaught
str.index ValueError inside the fence stripper, or the final
"Could not extract JSON" ValueError. -/
inductive JsonErr
  | fenceIdx
  | noJson
deriving DecidableEq, Repr

/-- Decimal rendering of a number, for embedded f-string fragments. -/
def natStr (n : Nat) : Str := (Nat.repr n).data

/-- Join a list of strings with a separator (Python str.join). -/
def intercalateS (sep : Str) (xs : List Str) : Str :=
  (xs.intersperse sep).flatten

/-! Data model: the tiered plan and the audit result.  Both arrive as
untrusted JSON dictionaries in the source; optional fields model keys
that may be absent, and every access applies the same default the Python
dict.get call applies. -/

/-- One planned change of a tier (§3 of the spec). -/
structure Change where
  page_url : Option Str := none
  file_path : Option Str := none
  change_type : Option Str := none
  current_value : Option Str := none
  suggested_value : Option Str := none
  justification : Option Str := none
  priority_score : Option Int := none
deriving DecidableEq, Repr

/-- One priority tier of the plan. -/
structure Tier where
  tier : Option Str := none
  description : Option Str := none
  changes : Option (List Change) := none
deriving DecidableEq, Repr

/-- The Planner's tiered plan.  `perr` models the "error" key that
`analyze_seo_issues` adds on failure (and that parsed JSON could also
carry). -/
structure Plan where
  summary : Option Str := none
  tiers : Option (List Tier) := none
  perr : Option Str := none
deriving DecidableEq, Repr

/-- plan.get("tiers", []). -/
def planTiers (p : Plan) : List Tier := p.tiers.getD []

/-- tier.get("changes", []). -/
def tierChanges (t : Tier) : List Change := t.changes.getD []

/-- Python truthiness of plan.get("error") as tested at line 907. -/
def planErrTruthy (p : Plan) : Bool :=
  match p.perr with
  | some e => e ≠ []
  | none => false

/-- `_extract_json` (lines 158-189): fence strip, direct parse when the
text starts with a brace, first-brace-to-last-brace extraction, and
finally an uncaught ValueError. -/
def extract_json (jp : Str → Option Plan) (text : Str) : Except JsonErr Plan := do
  let t ← (stripFences text).mapError (fun _ => JsonErr.fenceIdx)
  let direct : Option Plan :=
    if t.head? = some '{' then jp t else none
  match direct with
  | some p => return p
  | none =>
    match firstIdxChar '{' t, lastIdxChar '}' t with
    | some i, some j =>
      if i < j then
        match jp (sliceStr t i (j + 1)) with
        | some p => return p
        | none => throw .noJson
      else throw .noJson
    | _, _ => throw .noJson

/-- One per-page finding of the Auditor's result (§4.1).  Every field the
summary loop reads through dict.get is optional. -/
structure AuditPage where
  url : Option Str := none
  title : Option Str := none
  title_length : Option Nat := none
  meta_description : Option Str := none
  meta_description_length : Option Nat := none
  h1_count : Option Nat := none
  h2_count : Option Nat := none
  word_count : Option Nat := none
  total_images : Option Nat := none
  images_missing_alt : Option Nat := none
  internal_links : Option Nat := none
  external_links : Option Nat := none
  has_schema : Option Bool := none
  canonical : Option Str := none
  og_image : Option Str := none
  issues : List Str := []
deriving DecidableEq, Repr

/-- The Auditor's result.  `err` models the presence of an "error" key
(run_seo_pipeline tests membership, not truthiness); `analysis` models
recommendations.analysis. -/
structure AuditResult where
  err : Option Str := none
  audit_id : Option Str := none
  domain : Option Str := none
  pages_audited : Option Nat := none
  pages : List AuditPage := []
  analysis : Option Str := none
deriving DecidableEq, Repr

/-- Repository context handed to the analyzer. -/
structure RepoInfo where
  repo_url : Str := []
  base_branch : Str := []
  company_description : Str := []
deriving DecidableEq, Repr

/-- Python truthiness of an optional string field. -/
def optTruthy (o : Option Str) : Bool :=
  match o with
  | some s => s ≠ []
  | none => false

/-- The per-page block of the audit summary (lines 107-115).  Reading
`p['url']` indexes the dictionary directly, so a page without a url
raises KeyError; every other field is read with a default. -/
def pageSummaryParts (p : AuditPage) : Except Str (List Str) := do
  let url ← match p.url with
    | some u => pure u
    | none => throw ("'url'".data)
  let l1 := "--- ".data ++ url ++ " ---".data
  let l2 := "Title (".data ++ natStr (p.title_length.getD 0) ++ " chars): ".data
              ++ (p.title.getD ("MISSING".data))
  let l3 := "Meta desc (".data ++ natStr (p.meta_description_length.getD 0)
              ++ " chars): ".data
              ++ (p.meta_description.getD ("MISSING".data)).take 100
  let l4 := "H1s: ".data ++ natStr (p.h1_count.getD 0) ++ " | H2s: ".data
              ++ natStr (p.h2_count.getD 0) ++ " | Words: ".data
              ++ natStr (p.word_count.getD 0)
  let l5 := "Images: ".data ++ natStr (p.total_images.getD 0) ++ " total, ".data
              ++ natStr (p.images_missing_alt.getD 0) ++ " missing alt".data
  let l6 := "Links: ".data ++ natStr (p.internal_links.getD 0)
              ++ " internal, ".data ++ natStr (p.external_links.getD 0)
              ++ " external".data
  let l7 := "Schema: ".data
              ++ (if p.has_schema.getD false then "Yes".data else "No".data)
              ++ " | Canonical: ".data
              ++ (if optTruthy p.canonical then "Yes".data else "No".data)
              ++ " | OG: ".data
              ++ (if optTruthy p.og_image then "Yes".data else "No".data)
  let issueLine : List Str :=
    if p.issues = [] then []
    else ["Issues: ".data ++ intercalateS (", ".data) p.issues]
  return [l1, l2, l3, l4, l5, l6, l7] ++ issueLine

/-- The audit summary sent to the analysis model (lines 96-134).  The
only way it can fail is the KeyError on a page without a url. -/
def buildSummaryParts (a : AuditResult) (ri : RepoInfo) : Except Str (List Str) := do
  let head : List Str :=
    [ "SEO AUDIT RESULTS FOR ".data ++ (a.domain.getD ("unknown".data)),
      natStr (a.pages_audited.getD 0) ++ " pages crawled.".data ]
  let pageParts ← a.pages.foldlM
    (fun acc p => do
      let ps ← pageSummaryParts p
      return acc ++ ps) ([] : List Str)
  let totalIssues := (a.pages.map (fun p => p.issues.length)).sum
  let tail1 := ["TOTAL ISSUES: ".data ++ natStr totalIssues
                  ++ " across ".data ++ natStr a.pages.length ++ " pages".data]
  let tail2 : List Str :=
    if optTruthy a.analysis then
      ["EXISTING ANALYSIS:".data ++ (a.analysis.getD [])]
    else []
  let tail3 : List Str :=
    (if ri.repo_url ≠ [] then ["TARGET REPO: ".data ++ ri.repo_url] else [])
    ++ (if ri.base_branch ≠ [] then ["BASE BRANCH: ".data ++ ri.base_branch] else [])
    ++ (if ri.company_description ≠ [] then
          ["COMPANY CONTEXT: ".data ++ ri.company_description] else [])
  return head ++ pageParts ++ tail1 ++ tail2 ++ tail3

/-- Rendered error text of the final ValueError of `_extract_json`. -/
def jsonErrText (je : JsonErr) (stripped : Str) : Str :=
  match je with
  | .fenceIdx => "substring not found".data
  | .noJson => "Could not extract JSON from response (length=".data
                 ++ natStr stripped.length ++ ")".data

/-- `analyze_seo_issues` (lines 93-155): build the audit summary (which
can raise KeyError), call the reasoning model inside a try block, parse
its output; any exception inside the try block is caught and turned into
a plan carrying an "error" field. -/
def analyze_seo_issues (llm : Except Str Str) (jp : Str → Option Plan)
    (audit : AuditResult) (ri : RepoInfo) : Except Str Plan := do
  let _parts ← buildSummaryParts audit ri
  match llm with
  | .error e =>
    return { summary := some ("Analysis failed: ".data ++ e),
             tiers := some [], perr := some e }
  | .ok raw =>
    match extract_json jp raw with
    | .ok plan => return plan
    | .error je =>
      let msg := jsonErrText je raw
      return { summary := some ("Analysis failed: ".data ++ msg),
               tiers := some [], perr := some msg }

/-! Implementer (`implement_seo_changes`, lines 225-320). -/

/-- One entry of a tier's error list: a failed edit, or the caught
exception of the tier's model call / parse. -/
inductive TierErrEntry
  | editFail (e : Edit) (err : EditErr)
  | llmFail (msg : Str)
deriving DecidableEq, Repr

/-- Per-tier outcome record appended to the results list. -/
structure TierResult where
  tier : Str
  edits_applied : Nat
  errors : List TierErrEntry
deriving DecidableEq, Repr

/-- Apply a tier's edits in order (lines 296-303): a failing edit is
recorded and skipped, the remaining edits still apply. -/
def applyEditsFold (w : Workspace) : List Edit → Workspace × Nat × List TierErrEntry
  | [] => (w, 0, [])
  | e :: rest =>
    match apply_edit w e with
    | .ok w2 =>
      let (w3, n, errs) := applyEditsFold w2 rest
      (w3, n + 1, errs)
    | .error err =>
      let (w3, n, errs) := applyEditsFold w rest
      (w3, n, .editFail e err :: errs)

/-- The tier loop of `implement_seo_changes`: a tier with no changes gets
an empty result and no model call; otherwise the model is called (its
exceptions caught per tier), the edit list parsed, and every edit
applied.  `implLLM` is indexed by the tier's position. -/
def implementGo (implLLM : Nat → Except Str Str)
    (jp : Str → Option (List Edit)) :
    Workspace → Nat → List Tier → Workspace × List TierResult
  | w, _, [] => (w, [])
  | w, idx, t :: rest =>
    let tierName := t.tier.getD ("P0".data)
    let changes := tierChanges t
    if changes = [] then
      let (w2, rs) := implementGo implLLM jp w (idx + 1) rest
      (w2, { tier := tierName, edits_applied := 0, errors := [] } :: rs)
    else
      match implLLM idx with
      | .error e =>
        let (w2, rs) := implementGo implLLM jp w (idx + 1) rest
        (w2, { tier := tierName, edits_applied := 0, errors := [.llmFail e] } :: rs)
      | .ok raw =>
        match extract_edits jp raw with
        | .error _ =>
          -- the str.index ValueError is caught by the tier's try block
          let (w2, rs) := implementGo implLLM jp w (idx + 1) rest
          (w2, { tier := tierName, edits_applied := 0,
                 errors := [.llmFail ("substring not found".data)] } :: rs)
        | .ok edits =>
          let (w1, applied, errs) := applyEditsFold w edits
          let (w2, rs) := implementGo implLLM jp w1 (idx + 1) rest
          (w2, { tier := tierName, edits_applied := applied, errors := errs } :: rs)

/-- `implement_seo_changes` (lines 225-320). -/
def implement_seo_changes (implLLM : Nat → Except Str Str)
    (jp : Str → Option (List Edit)) (plan : Plan) (w : Workspace) :
    Workspace × List TierResult :=
  implementGo implLLM jp w 0 (planTiers plan)

/-! Review publisher (`create_seo_pr`, lines 412-516).  Every subprocess
invocation is recorded as its argument vector so the set of
version-control interactions is an observable of the model. -/

/-- An issued subprocess command, as its argument vector. -/
abbrev Cmd := List Str

/-- Lift a literal argument vector. -/
def cmdS (xs : List String) : Cmd := xs.map (fun s => s.data)

/-- One commit on the run's branch: the commit message and the tree
(workspace snapshot) it records. -/
structure Commit where
  msg : Str
  tree : Workspace
deriving DecidableEq, Repr

/-- Local git state of the workspace: the tree of the last commit and
the log of commits created by the pipeline. -/
structure GitState where
  committed : Workspace
  commits : List Commit
deriving DecidableEq, Repr

/-- External behaviour of git and gh during `create_seo_pr`. -/
structure PrEnv where
  checkout_ok : Bool
  commit_fails : Nat → Bool
  push_ok : Bool
  push_stderr : Str := []
  pr_first : Except Str Str
  pr_retry : Except Str Str
  today : Str := []

/-- Return value of `create_seo_pr` (plus the resulting git state). -/
structure PrResult where
  pr_url : Str
  changes_made : Nat
  branch_name : Option Str
  error : Str
  git : GitState
deriving DecidableEq, Repr

/-- domain.replace("https://","").replace("http://","").replace("/","_")
(line 954). -/
def cleanDomain (d : Str) : Str :=
  replaceAll ("/".data) ("_".data)
    (replaceAll ("http://".data) []
      (replaceAll ("https://".data) [] d))

/-- repo_url.replace("https://github.com/","").replace(".git","")
(lines 471 and 989). -/
def repoSlug (u : Str) : Str :=
  replaceAll (".git".data) [] (replaceAll ("https://github.com/".data) [] u)

/-- `_build_pr_body` (lines 519-553): the PR description text. -/
def build_pr_body (plan : Plan) (domain : Str) : Str :=
  let tiers := planTiers plan
  let nonEmpty := tiers.filter (fun t => tierChanges t ≠ [])
  let allCount := (nonEmpty.map (fun t => (tierChanges t).length)).sum
  let sections := nonEmpty.map (fun t =>
    let lines := (tierChanges t).map (fun c =>
      "- **".data ++ (c.change_type.getD ("update".data)) ++ "** on `".data
        ++ (c.page_url.getD (c.file_path.getD ("N/A".data))) ++ "`: ".data
        ++ (c.justification.getD []))
    "### ".data ++ (t.tier.getD ("P0".data)) ++ " — ".data
      ++ (t.description.getD []) ++ " (".data
      ++ natStr (tierChanges t).length ++ " changes)".data
      ++ "\n".data ++ intercalateS ("\n".data) lines)
  "## SEO Improvements for ".data ++ domain ++ "\n\n".data
    ++ "Automated analysis identified ".data ++ natStr allCount
    ++ " improvements across ".data ++ natStr nonEmpty.length
    ++ " priority tiers.\n\n".data
    ++ intercalateS ("\n".data) sections
    ++ "\n\n---\n*Generated by Pressroom SEO Pipeline. Human review required before merge.*".data

/-- The arguments of the gh label create invocation (lines 490-494). -/
def labelCmd (slug : Str) : Cmd :=
  ["gh".data, "label".data, "create".data, "seo-auto".data,
   "--repo".data, slug, "--description".data,
   "Automated SEO improvements".data, "--color".data, "0E8A16".data]

/-- The arguments of the gh pr create invocation (lines 474-485). -/
def prCreateCmd (slug title body base head : Str) : Cmd :=
  ["gh".data, "pr".data, "create".data,
   "--repo".data, slug, "--title".data, title, "--body".data, body,
   "--base".data, base, "--head".data, head,
   "--label".data, "seo-auto".data]

/-- The commit message of a tier's commit (line 449). -/
def tierCommitMsg (t : Tier) (domain : Str) : Str :=
  "[SEO ".data ++ t.tier.getD ("P0".data) ++ "] ".data ++ domain ++ ": ".data
    ++ t.description.getD ("SEO improvements".data)

/-- The commit loop of `create_seo_pr` (lines 433-452): walk the tiers;
a tier with no planned changes is skipped before the status check; a
clean working tree skips the tier; otherwise everything is staged and
committed under this tier's label, and the tier's planned-change count
is added to the running total on commit success. -/
def commitLoop (env : PrEnv) (w : Workspace) (domain : Str) :
    GitState → Nat → Nat → List Tier → GitState × Nat × List Cmd
  | gs, _, total, [] => (gs, total, [])
  | gs, idx, total, t :: rest =>
    let changes := tierChanges t
    if changes = [] then commitLoop env w domain gs (idx + 1) total rest
    else
      let statusCmd := cmdS ["git", "status", "--porcelain"]
      if w = gs.committed then
        -- clean tree: nothing to commit for this tier
        let (gs2, tot2, tr) := commitLoop env w domain gs (idx + 1) total rest
        (gs2, tot2, statusCmd :: tr)
      else
        let msg := tierCommitMsg t domain
        let addCmd := cmdS ["git", "add", "-A"]
        let commitCmd : Cmd :=
          ["git".data, "commit".data, "-m".data, msg]
        if env.commit_fails idx then
          let (gs2, tot2, tr) := commitLoop env w domain gs (idx + 1) total rest
          (gs2, tot2, statusCmd :: addCmd :: commitCmd :: tr)
        else
          let gs1 : GitState :=
            { committed := w, commits := gs.commits ++ [{ msg := msg, tree := w }] }
          let (gs2, tot2, tr) :=
            commitLoop env w domain gs1 (idx + 1) (total + changes.length) rest
          (gs2, tot2, statusCmd :: addCmd :: commitCmd :: tr)

/-- `create_seo_pr` (lines 412-516): create the branch, commit per tier,
push the run's branch, open the pull request against the base branch
(retrying once after provisioning the label).  Raises (Except.error)
only if branch creation fails. -/
def create_seo_pr (env : PrEnv) (w origTree : Workspace)
    (repo_url branch_name base_branch : Str) (plan : Plan) (domain : Str) :
    Except Str PrResult × List Cmd :=
  let coCmd : Cmd := ["git".data, "checkout".data, "-b".data, branch_name]
  if ¬ env.checkout_ok then
    (.error ("Failed to create branch: ".data), [coCmd])
  else
    let gs0 : GitState := { committed := origTree, commits := [] }
    let (gs, total, loopTr) := commitLoop env w domain gs0 0 0 (planTiers plan)
    if total = 0 then
      (.ok { pr_url := [], changes_made := 0, branch_name := none,
             error := "No changes to commit".data, git := gs },
       coCmd :: loopTr)
    else
      let pushCmd : Cmd := ["git".data, "push".data, "origin".data, branch_name]
      if ¬ env.push_ok then
        (.ok { pr_url := [], changes_made := total, branch_name := none,
               error := "Push failed: ".data ++ env.push_stderr, git := gs },
         coCmd :: loopTr ++ [pushCmd])
      else
        let body := build_pr_body plan domain
        let title := "[SEO] ".data ++ domain
                       ++ ": Automated improvements (".data ++ env.today ++ ")".data
        let slug := repoSlug repo_url
        let prCmd := prCreateCmd slug title body base_branch branch_name
        let baseTr := coCmd :: loopTr ++ [pushCmd, prCmd]
        match env.pr_first with
        | .ok url =>
          (.ok { pr_url := url, changes_made := total,
                 branch_name := some branch_name, error := [], git := gs },
           baseTr)
        | .error stderr1 =>
          if occursB ("label".data) (lowerS stderr1) then
            let tr2 := baseTr ++ [labelCmd slug, prCmd]
            match env.pr_retry with
            | .ok url =>
              (.ok { pr_url := url, changes_made := total,
                     branch_name := some branch_name, error := [], git := gs },
               tr2)
            | .error stderr2 =>
              (.ok { pr_url := [], changes_made := total,
                     branch_name := some branch_name,
                     error := stripWS stderr2, git := gs },
               tr2)
          else
            (.ok { pr_url := [], changes_made := total,
                   branch_name := some branch_name,
                   error := stripWS stderr1, git := gs },
             baseTr)

/-! Deploy verifier (`verify_deploy`, lines 576-688). -/

/-- One GitHub check run as read by the verifier. -/
structure CheckRun where
  name : Str := []
  app_slug : Str := []
  status : Str := []
  conclusion : Str := []
  details_url : Str := []
  html_url : Str := []
  summary : Str := []
deriving DecidableEq, Repr

/-- One legacy commit status as read by the verifier. -/
structure CommitStatus where
  context : Str := []
  state : Str := []
  target_url : Str := []
  description : Str := []
deriving DecidableEq, Repr

/-- Responses of the three gh api calls of one poll iteration.  A `none`
for check runs covers both a failing call and unparseable JSON — the two
have the same observable effect (sleep and retry). -/
structure PollRound where
  sha : Except Str Str := .ok []
  check_runs : Option (List CheckRun) := none
  statuses : Option (List CommitStatus) := none

/-- Environment of one `verify_deploy` invocation: the configured token
and the endpoint responses of each iteration. -/
structure VerifyEnv where
  has_token : Bool := true
  rounds : Nat → PollRound := fun _ => {}

/-- Classification returned by `verify_deploy`.  `fuelOut` is the
distinguished marker of the fuel-indexed loop running out of fuel; the
termination theorem shows it is never returned. -/
inductive VStatus
  | success
  | failed
  | no_checks
  | timeout
  | fuelOut
deriving DecidableEq, Repr

/-- Return value of `verify_deploy`. -/
structure VerifyResult where
  status : VStatus
  details : Str := []
  log_url : Str := []
deriving DecidableEq, Repr

/-- Keyword vocabulary for deploy-related check runs (line 628). -/
def deployKeywords : List Str :=
  ["netlify".data, "deploy".data, "build".data, "vercel".data, "cloudflare".data]

/-- Keyword vocabulary for deploy-related commit statuses (line 642). -/
def statusKeywords : List Str :=
  ["netlify".data, "deploy".data, "build".data]

/-- The check-run scan of lines 624-630: first check run whose name or
app slug contains a deploy keyword, case-insensitively. -/
def findDeployCheck (crs : List CheckRun) : Option CheckRun :=
  crs.find? (fun cr => deployKeywords.any
    (fun kw => occursB kw (lowerS cr.name) || occursB kw (lowerS cr.app_slug)))

/-- The commit-status scan of lines 640-650: first status whose context
contains a deploy keyword, case-insensitively. -/
def findDeployStatus (sts : List CommitStatus) : Option CommitStatus :=
  sts.find? (fun st => statusKeywords.any
    (fun kw => occursB kw (lowerS st.context)))

/-- The gh api argument vector resolving the branch head (line 600). -/
def shaCmd (slug branch : Str) : Cmd :=
  ["gh".data, "api".data,
   "repos/".data ++ slug ++ "/commits/".data ++ branch,
   "--jq".data, ".sha".data]

/-- The gh api argument vector listing check runs (line 613). -/
def checkRunsCmd (slug sha : Str) : Cmd :=
  ["gh".data, "api".data,
   "repos/".data ++ slug ++ "/commits/".data ++ sha ++ "/check-runs".data]

/-- The gh api argument vector listing commit statuses (line 635). -/
def statusesCmd (slug sha : Str) : Cmd :=
  ["gh".data, "api".data,
   "repos/".data ++ slug ++ "/commits/".data ++ sha ++ "/statuses".data]

/-- The poll loop of `verify_deploy` (lines 596-688).  `iter` counts
completed sleeps, so the elapsed wall-clock time is iter * pollInterval;
`lastSt` carries the Python `last_status` truthiness across iterations.
The loop is driven by fuel; `verify_deploy` supplies enough fuel that it
never runs out (proved below). -/
def verifyLoop (env : VerifyEnv) (slug branch : Str) (maxWait pollInterval : Nat) :
    Nat → Nat → Bool → VerifyResult × List Cmd
  | 0, _, _ => ({ status := .fuelOut }, [])
  | fuel + 1, iter, lastSt =>
    let elapsed := iter * pollInterval
    if elapsed < maxWait then
      let rd := env.rounds iter
      match rd.sha with
      | .error e =>
        ({ status := .no_checks,
           details := "Cannot read branch: ".data ++ e.take 200 },
         [shaCmd slug branch])
      | .ok sha =>
        if sha = [] then
          ({ status := .no_checks, details := "Empty SHA returned".data },
           [shaCmd slug branch])
        else
          let tr0 := [shaCmd slug branch, checkRunsCmd slug sha]
          match rd.check_runs with
          | none =>
            let rec1 := verifyLoop env slug branch maxWait pollInterval fuel (iter + 1) lastSt
            (rec1.1, tr0 ++ rec1.2)
          | some crs =>
            match findDeployCheck crs with
            | none =>
              let tr1 := tr0 ++ [statusesCmd slug sha]
              match rd.statuses.bind findDeployStatus with
              | some st =>
                if st.state = "success".data then
                  ({ status := .success,
                     details := "Deploy passed via status: ".data ++ st.context,
                     log_url := st.target_url }, tr1)
                else if st.state = "failure".data ∨ st.state = "error".data then
                  ({ status := .failed, details := st.description,
                     log_url := st.target_url }, tr1)
                else
                  let lastSt2 := st.state ≠ []
                  if ¬ lastSt2 ∧ elapsed > 60 then
                    ({ status := .no_checks,
                       details := "No deploy checks found after 60s".data }, tr1)
                  else
                    let rec1 := verifyLoop env slug branch maxWait pollInterval fuel (iter + 1) lastSt2
                    (rec1.1, tr1 ++ rec1.2)
              | none =>
                if ¬ lastSt ∧ elapsed > 60 then
                  ({ status := .no_checks,
                     details := "No deploy checks found after 60s".data }, tr1)
                else
                  let rec1 := verifyLoop env slug branch maxWait pollInterval fuel (iter + 1) lastSt
                  (rec1.1, tr1 ++ rec1.2)
            | some dc =>
              if dc.status = "completed".data then
                let logUrl := if dc.details_url ≠ [] then dc.details_url else dc.html_url
                if dc.conclusion = "success".data then
                  ({ status := .success, details := "Deploy succeeded".data,
                     log_url := logUrl }, tr0)
                else
                  let summary := dc.summary.take 2000
                  ({ status := .failed,
                     details := if summary ≠ [] then summary
                                else "Deploy failed: ".data ++ dc.conclusion,
                     log_url := logUrl }, tr0)
              else
                let rec1 := verifyLoop env slug branch maxWait pollInterval fuel (iter + 1) (dc.status ≠ [])
                (rec1.1, tr0 ++ rec1.2)
    else
      ({ status := .timeout,
         details := "Deploy verification timed out after ".data
                      ++ natStr maxWait ++ "s".data }, [])

/-- `verify_deploy` (lines 576-688): bail out without a token, otherwise
run the poll loop from elapsed time zero.  maxWait + 1 units of fuel
always suffice (theorem below). -/
def verify_deploy (env : VerifyEnv) (slug branch : Str)
    (maxWait pollInterval : Nat) : VerifyResult × List Cmd :=
  if ¬ env.has_token then
    ({ status := .no_checks, details := "No GitHub token configured".data }, [])
  else
    verifyLoop env slug branch maxWait pollInterval (maxWait + 1) 0 false

/-! Healer (`diagnose_and_fix_build`, `heal_build`, lines 715-839). -/

/-- `diagnose_and_fix_build` (lines 715-781): ask the reasoning model
for corrective edits and parse them; every exception (model call or the
parser's str.index ValueError) is caught and yields the empty list.  The
diagnostic prompt text (build log, change summary, file contents) is
assembled from data no return value depends on, so it is not modelled. -/
def diagnose_and_fix_build (llm : Except Str Str)
    (jp : Str → Option (List Edit)) : List Edit :=
  match llm with
  | .error _ => []
  | .ok raw =>
    match extract_edits jp raw with
    | .ok es => es
    | .error _ => []

/-- Return value of `heal_build`. -/
structure HealResult where
  healed : Bool
  edits_applied : Nat
  error : Str
deriving DecidableEq, Repr

/-- `heal_build` (lines 784-839): fetch the log, diagnose, apply the
edits, then stage, commit and push the fix on the run's branch.  The
commit fails when there is nothing to commit (the applied edits left
every file's content unchanged) or git itself fails. -/
def heal_build (llm : Except Str Str) (jp : Str → Option (List Edit))
    (commitFails : Bool) (commitStderr : Str) (pushOk : Bool) (pushStderr : Str)
    (w : Workspace) (gs : GitState) (branch : Str) :
    HealResult × Workspace × GitState × List Cmd :=
  let edits := diagnose_and_fix_build llm jp
  if edits = [] then
    ({ healed := false, edits_applied := 0,
       error := "Could not determine fix from build log".data }, w, gs, [])
  else
    let (w2, applied, _errs) := applyEditsFold w edits
    if applied = 0 then
      ({ healed := false, edits_applied := 0,
         error := "No edits could be applied: ".data }, w2, gs, [])
    else
      let addCmd := cmdS ["git", "add", "-A"]
      let msg := "[SEO fix] Build repair: ".data ++ natStr applied
                   ++ (if applied ≠ 1 then " edits".data else " edit".data)
      let commitCmd : Cmd := ["git".data, "commit".data, "-m".data, msg]
      if w2 = gs.committed ∨ commitFails then
        ({ healed := false, edits_applied := applied,
           error := "Commit failed: ".data ++ commitStderr.take 200 },
         w2, gs, [addCmd, commitCmd])
      else
        let gs2 : GitState :=
          { committed := w2, commits := gs.commits ++ [{ msg := msg, tree := w2 }] }
        let pushCmd : Cmd := ["git".data, "push".data, "origin".data, branch]
        if ¬ pushOk then
          ({ healed := false, edits_applied := applied,
             error := "Push failed: ".data ++ pushStderr.take 200 },
           w2, gs2, [addCmd, commitCmd, pushCmd])
        else
          ({ healed := true, edits_applied := applied, error := [] },
           w2, gs2, [addCmd, commitCmd, pushCmd])

/-! Orchestrator (`run_seo_pipeline`, lines 846-1105). -/

/-- The status tags written to the Run record.  `pending` is the value
the record is created with (src/api/seo_pr.py line 59); the pipeline
itself writes the others. -/
inductive Status
  | pending
  | auditing
  | analyzing
  | implementing
  | pushing
  | verifying
  | healing
  | complete
  | failed
deriving DecidableEq, Repr

/-- Values written to the deploy_status field. -/
inductive DStat
  | pending
  | success
  | failed
  | healed
  | no_checks
  | timeout
deriving DecidableEq, Repr

/-- One call of the Run-record update callback: each optional field is
present exactly when the update dictionary carries that key. -/
structure Upd where
  status : Option Status := none
  audit_id : Option Str := none
  error : Option Str := none
  plan_json : Option Plan := none
  changes_made : Option Nat := none
  heal_attempts : Option Nat := none
  deploy_status : Option DStat := none
  deploy_log : Option Str := none
  pr_url : Option Str := none
  branch_name : Option Str := none
  completed_at : Bool := false
deriving DecidableEq, Repr

/-- Environment of one pipeline run: the trigger's configuration and the
behaviour of every external collaborator the run consults. -/
structure PipeEnv where
  domain : Str := []
  repo_url : Str := []
  base_branch : Str := "main".data
  company_description : Str := []
  today : Str := []
  audit : Except Str AuditResult := .ok {}
  analyze_llm : Except Str Str := .error []
  jparse_plan : Str → Option Plan := fun _ => none
  clone_ok : Except Str Unit := .ok ()
  ws0 : Workspace := []
  impl_llm : Nat → Except Str Str := fun _ => .error []
  jparse_edits : Str → Option (List Edit) := fun _ => none
  checkout_ok : Bool := true
  commit_fails : Nat → Bool := fun _ => false
  push_ok : Bool := true
  push_stderr : Str := []
  pr_first : Except Str Str := .ok []
  pr_retry : Except Str Str := .ok []
  verify : Nat → VerifyEnv := fun _ => {}
  heal_llm : Nat → Except Str Str := fun _ => .error []
  heal_commit_fails : Nat → Bool := fun _ => false
  heal_commit_stderr : Nat → Str := fun _ => []
  heal_push_ok : Nat → Bool := fun _ => true
  heal_push_stderr : Nat → Str := fun _ => []

/-- The git/gh environment slice handed to `create_seo_pr`. -/
def prEnvOf (env : PipeEnv) : PrEnv :=
  { checkout_ok := env.checkout_ok, commit_fails := env.commit_fails,
    push_ok := env.push_ok, push_stderr := env.push_stderr,
    pr_first := env.pr_first, pr_retry := env.pr_retry, today := env.today }

/-- Observable outcome of one pipeline run: the returned result
dictionary, the sequence of Run-record updates, and the sequence of
issued version-control commands. -/
structure RunOut where
  status : Status
  pr_url : Str := []
  branch_name : Str := []
  changes_made : Nat := 0
  plan : Plan := {}
  error : Str := []
  upds : List Upd := []
  trace : List Cmd := []

/-- max_heal_attempts (line 1024). -/
def maxHealAttempts : Nat := 2

/-- Outcome of the tail of the pipeline from the healing phase on:
final status, a replacement for the result's error field (none leaves it
unchanged), and the updates and commands issued from there. -/
structure TailOut where
  status : Status
  error : Option Str
  upds : List Upd
  trace : List Cmd

/-- The healing loop (lines 1024-1086): for attempt in 1..2, record the
attempt count, run `heal_build`; a failed attempt retries or — on the
last attempt — completes the run with deploy_status=failed; a pushed fix
re-verifies, completing the run (deploy_status=healed) on success or on
an unverifiable outcome, and otherwise consuming the next attempt with
the fresh deploy result.  The recursion walks the list of remaining
attempt numbers, the translation of Python's for-loop over
range(1, max_heal_attempts + 1); the empty list is the loop running to
exhaustion (line 1078). -/
def heal_go (env : PipeEnv) (slug branch : Str) :
    Workspace → GitState → VerifyResult → List Nat → TailOut
  | _, _, _, [] =>
    let msg := "Deploy failed after all heal attempts".data
    { status := .complete, error := some msg,
      upds := [{ status := some .complete, deploy_status := some .failed,
                 error := some msg, completed_at := true }],
      trace := [] }
  | w, gs, dr, attempt :: rest =>
    let u1 : List Upd := [{ heal_attempts := some attempt }]
    let (hr, w2, gs2, hTr) :=
      heal_build (env.heal_llm attempt) env.jparse_edits
        (env.heal_commit_fails attempt) (env.heal_commit_stderr attempt)
        (env.heal_push_ok attempt) (env.heal_push_stderr attempt) w gs branch
    if hr.healed = false then
      if attempt = maxHealAttempts then
        let msg := "Deploy failed, heal failed: ".data ++ hr.error
        { status := .complete, error := some msg,
          upds := u1 ++ [{ status := some .complete, deploy_status := some .failed,
                           error := some msg, completed_at := true }],
          trace := hTr }
      else
        let t := heal_go env slug branch w2 gs2 dr rest
        { t with upds := u1 ++ t.upds, trace := hTr ++ t.trace }
    else
      let u2 := u1 ++ [{ status := some .verifying, deploy_status := some .pending }]
      let (dr2, vTr) := verify_deploy (env.verify attempt) slug branch 300 15
      match dr2.status with
      | .success =>
        { status := .complete, error := none,
          upds := u2 ++ [{ status := some .complete, deploy_status := some .healed,
                           completed_at := true }],
          trace := hTr ++ vTr }
      | .no_checks =>
        { status := .complete, error := none,
          upds := u2 ++ [{ status := some .complete, deploy_status := some .healed,
                           deploy_log := some dr2.details, completed_at := true }],
          trace := hTr ++ vTr }
      | .timeout =>
        { status := .complete, error := none,
          upds := u2 ++ [{ status := some .complete, deploy_status := some .healed,
                           deploy_log := some dr2.details, completed_at := true }],
          trace := hTr ++ vTr }
      | _ =>
        let t := heal_go env slug branch w2 gs2 dr2 rest
        { t with upds := u2 ++ t.upds, trace := hTr ++ vTr ++ t.trace }

/-- Total number of planned changes across all tiers (line 917). -/
def totalPlannedChanges (plan : Plan) : Nat :=
  ((planTiers plan).map (fun t => (tierChanges t).length)).sum

/-- Total number of successfully applied edits across the tier results
(line 935). -/
def appliedSum (rs : List TierResult) : Nat :=
  (rs.map (fun r => r.edits_applied)).sum

/-- The repository context record built at lines 900-904. -/
def riOf (env : PipeEnv) : RepoInfo :=
  { repo_url := env.repo_url, base_branch := env.base_branch,
    company_description := env.company_description }

/-- The run's branch name, derived from domain and date (lines 953-955). -/
def branchOf (env : PipeEnv) : Str :=
  "seo-auto/".data ++ cleanDomain env.domain ++ "/".data ++ env.today

/-- The git clone argument vector (lines 400-403).  The ephemeral
temporary directory argument is not modelled. -/
def cloneCmd (repo_url base_branch : Str) : Cmd :=
  ["git".data, "clone".data, "--depth".data, "1".data,
   "--branch".data, base_branch, repo_url]

/-- The Run-record update of a top-level caught exception
(lines 1088-1097). -/
def exceptionUpd (e : Str) : Upd :=
  { status := some .failed, error := some e, completed_at := true }

/-- `run_seo_pipeline` (lines 846-1105): audit, analyze, clone,
implement, push and open the PR, verify the deploy and self-heal, with
the Run record updated at every phase boundary.  Raising collaborator
calls are routed to the top-level exception handler, which marks the run
failed. -/
def run_seo_pipeline (env : PipeEnv) : RunOut :=
  let u1 : List Upd := [{ status := some .auditing }]
  match env.audit with
  | .error e =>
    { status := .failed, error := e, upds := u1 ++ [exceptionUpd e] }
  | .ok audit =>
    match audit.err with
    | some ae =>
      let msg := "Audit failed: ".data ++ ae
      { status := .failed, error := msg,
        upds := u1 ++ [{ status := some .failed, error := some msg }] }
    | none =>
      let u2 := u1 ++ [match audit.audit_id with
        | some aid => { audit_id := some aid }
        | none => ({} : Upd)]
      let u3 := u2 ++ [{ status := some .analyzing }]
      match analyze_seo_issues env.analyze_llm env.jparse_plan audit (riOf env) with
      | .error e =>
        { status := .failed, error := e, upds := u3 ++ [exceptionUpd e] }
      | .ok plan =>
        if planErrTruthy plan then
          let msg := "Analysis failed: ".data ++ plan.perr.getD []
          { status := .failed, error := msg,
            upds := u3 ++ [{ status := some .failed, error := some msg,
                             plan_json := some plan }] }
        else
          let u4 := u3 ++ [{ plan_json := some plan }]
          if totalPlannedChanges plan = 0 then
            let msg := "No SEO improvements identified".data
            { status := .complete, error := msg, plan := plan,
              upds := u4 ++ [{ status := some .complete, error := some msg,
                               plan_json := some plan }] }
          else
            let u5 := u4 ++ [{ status := some .implementing }]
            match env.clone_ok with
            | .error e =>
              { status := .failed, error := e, plan := plan,
                upds := u5 ++ [exceptionUpd e],
                trace := [cloneCmd env.repo_url env.base_branch] }
            | .ok _ =>
              let tr1 := [cloneCmd env.repo_url env.base_branch]
              let (w1, tierResults) :=
                implement_seo_changes env.impl_llm env.jparse_edits plan env.ws0
              let totalApplied := appliedSum tierResults
              if totalApplied = 0 then
                let msg := "No changes could be applied to repo files".data
                { status := .complete, error := msg, plan := plan, changes_made := 0,
                  upds := u5 ++ [{ status := some .complete, error := some msg,
                                   changes_made := some 0, plan_json := some plan }],
                  trace := tr1 }
              else
                let u6 := u5 ++ [{ status := some .pushing,
                                   changes_made := some totalApplied }]
                let branch := branchOf env
                match create_seo_pr (prEnvOf env) w1 env.ws0 env.repo_url
                        branch env.base_branch plan env.domain with
                | (.error e, prTr) =>
                  { status := .failed, error := e, plan := plan,
                    changes_made := totalApplied,
                    upds := u6 ++ [exceptionUpd e], trace := tr1 ++ prTr }
                | (.ok prRes, prTr) =>
                  let bn := prRes.branch_name.getD branch
                  if prRes.error ≠ [] ∧ prRes.pr_url = [] then
                    { status := .failed, pr_url := prRes.pr_url, branch_name := bn,
                      changes_made := prRes.changes_made, plan := plan,
                      error := prRes.error,
                      upds := u6 ++
                        [{ status := some .failed,
                           pr_url := some prRes.pr_url, branch_name := some bn,
                           changes_made := some prRes.changes_made,
                           error := some prRes.error, completed_at := true,
                           plan_json := some plan }],
                      trace := tr1 ++ prTr }
                  else
                    let u7 := u6 ++
                      [{ status := some .verifying,
                         pr_url := some prRes.pr_url, branch_name := some bn,
                         changes_made := some prRes.changes_made,
                         deploy_status := some .pending, plan_json := some plan }]
                    let slug := repoSlug env.repo_url
                    let (dr0, vTr0) := verify_deploy (env.verify 0) slug branch 300 15
                    let base : RunOut :=
                      { status := .complete, pr_url := prRes.pr_url,
                        branch_name := bn, changes_made := prRes.changes_made,
                        plan := plan, error := [],
                        upds := u7, trace := tr1 ++ prTr ++ vTr0 }
                    match dr0.status with
                    | .success =>
                      { base with
                        upds := base.upds ++
                          [{ status := some .complete,
                             deploy_status := some .success, completed_at := true }] }
                    | .no_checks =>
                      { base with
                        error := prRes.error,
                        upds := base.upds ++
                          [{ status := some .complete,
                             deploy_status := some .no_checks,
                             deploy_log := some dr0.details, completed_at := true }] }
                    | .timeout =>
                      { base with
                        error := prRes.error,
                        upds := base.upds ++
                          [{ status := some .complete,
                             deploy_status := some .timeout,
                             deploy_log := some dr0.details, completed_at := true }] }
                    | _ =>
                      let u8 : List Upd :=
                        [{ status := some .healing,
                           deploy_status := some .failed,
                           deploy_log := some (dr0.details.take 2000) }]
                      let t := heal_go env slug branch w1 prRes.git dr0
                                  (List.range' 1 maxHealAttempts)
                      { base with
                        status := t.status,
                        error := t.error.getD base.error,
                        upds := base.upds ++ u8 ++ t.upds,
                        trace := base.trace ++ t.trace }

/-! Observables and specification-side predicates used by the claims. -/

/-- Position of each status in the phase ordering of §4 of the spec;
both terminal states share the final position. -/
def phaseIdx : Status → Nat
  | .pending => 0
  | .auditing => 1
  | .analyzing => 2
  | .implementing => 3
  | .pushing => 4
  | .verifying => 5
  | .healing => 6
  | .complete => 7
  | .failed => 7

/-- The sequence of status values held by the Run record: the value it
is created with (pending, src/api/seo_pr.py line 59) followed by every
status written by the pipeline's updates. -/
def statusHistory (r : RunOut) : List Status :=
  .pending :: r.upds.filterMap (fun u => u.status)

/-- The sequence of heal_attempts values written by the pipeline. -/
def healWrites (r : RunOut) : List Nat :=
  r.upds.filterMap (fun u => u.heal_attempts)

/-- Forward movement through the phase ordering: the relation the claim
asserts between an earlier and a later written status. -/
def phaseForward (a b : Status) : Prop := phaseIdx a ≤ phaseIdx b

/-- The amended step relation: forward movement, or the one handback the
healer performs when a pushed fix returns control to the verifier. -/
def phaseStep (a b : Status) : Prop :=
  phaseIdx a ≤ phaseIdx b ∨ (a = .healing ∧ b = .verifying)

instance : DecidableRel phaseForward := fun a b =>
  inferInstanceAs (Decidable (phaseIdx a ≤ phaseIdx b))

instance : DecidableRel phaseStep := fun a b =>
  inferInstanceAs
    (Decidable (phaseIdx a ≤ phaseIdx b ∨ (a = .healing ∧ b = .verifying)))

/-- The interactions claim C2 enumerates: clone, branch creation,
staging, commit, push of the run's branch, and opening the review
request. -/
def claimC2Allowed (repo base branch slug : Str) (c : Cmd) : Prop :=
  c = cloneCmd repo base ∨
  c = ["git".data, "checkout".data, "-b".data, branch] ∨
  c = cmdS ["git", "add", "-A"] ∨
  (∃ m, c = ["git".data, "commit".data, "-m".data, m]) ∨
  c = ["git".data, "push".data, "origin".data, branch] ∨
  (∃ t b2, c = prCreateCmd slug t b2 base branch)

/-- Everything the pipeline actually issues: the claim's list plus
working-tree status inspection, provisioning of the review label, and
read-only queries of commits, check runs and commit statuses. -/
def allowedAmended (repo base branch slug : Str) (c : Cmd) : Prop :=
  claimC2Allowed repo base branch slug c ∨
  c = cmdS ["git", "status", "--porcelain"] ∨
  c = labelCmd slug ∨
  c = shaCmd slug branch ∨
  (∃ sha, c = checkRunsCmd slug sha) ∨
  (∃ sha, c = statusesCmd slug sha)

/-- Whether an argument vector is a merge, rebase, pull or an automatic
pull-request merge. -/
def isMergeCmd (c : Cmd) : Bool :=
  c.take 2 = ["git".data, "merge".data] ||
  c.take 2 = ["git".data, "rebase".data] ||
  c.take 2 = ["git".data, "pull".data] ||
  c.take 3 = ["gh".data, "pr".data, "merge".data]

/-- Specification-side restatement of claim C10's counting rule: walk
the tiers as the commit loop does and add up the planned-change count of
every tier whose turn sees a non-empty change list, a working tree
differing from the last committed tree, and a succeeding commit. -/
def committedPlannedSum (env : PrEnv) (w : Workspace) :
    Workspace → Nat → List Tier → Nat
  | _, _, [] => 0
  | committed, idx, t :: rest =>
    let changes := tierChanges t
    if changes = [] then committedPlannedSum env w committed (idx + 1) rest
    else if w = committed then committedPlannedSum env w committed (idx + 1) rest
    else if env.commit_fails idx then
      committedPlannedSum env w committed (idx + 1) rest
    else changes.length + committedPlannedSum env w w (idx + 1) rest

/-! Concrete environments used by counterexamples and witnesses. -/

/-- A planned change targeting file f. -/
def chgF : Change := { file_path := some "f".data, change_type := some "title".data }

/-- A plan with a single P0 tier holding one change. -/
def plan1 : Plan :=
  { summary := some "s".data,
    tiers := some [{ tier := some "P0".data, description := some "desc".data,
                     changes := some [chgF] }] }

/-- A plan whose single P0 tier holds two planned changes. -/
def plan2 : Plan :=
  { summary := some "s".data,
    tiers := some [{ tier := some "P0".data, description := some "desc".data,
                     changes := some [chgF, chgF] }] }

/-- A plan with one change in P0 (file f1) and one in P1 (file f2). -/
def plan4 : Plan :=
  { summary := some "s".data,
    tiers := some [{ tier := some "P0".data, description := some "d0".data,
                     changes := some [{ file_path := some "f1".data }] },
                   { tier := some "P1".data, description := some "d1".data,
                     changes := some [{ file_path := some "f2".data }] }] }

/-- Poll round reporting a completed failed netlify check. -/
def rdFail : PollRound :=
  { sha := .ok "s".data,
    check_runs := some [{ name := "netlify".data, status := "completed".data,
                          conclusion := "failure".data, summary := "boom".data }] }

/-- Poll round reporting a completed successful netlify check. -/
def rdOk : PollRound :=
  { sha := .ok "s".data,
    check_runs := some [{ name := "netlify".data, status := "completed".data,
                          conclusion := "success".data }] }

/-- Verifier environment that reports a failed deploy at once. -/
def vFail : VerifyEnv := { has_token := true, rounds := fun _ => rdFail }

/-- Verifier environment that reports a successful deploy at once. -/
def vOk : VerifyEnv := { has_token := true, rounds := fun _ => rdOk }

/-- Edit rewriting file f from a to b. -/
def edAB : Edit := { file_path := "f".data, search := "a".data, replace := "b".data }

/-- Edit rewriting file f from b to c. -/
def edBC : Edit := { file_path := "f".data, search := "b".data, replace := "c".data }

/-- Environment of a run whose first verification fails, whose single
heal attempt pushes a fix, and whose re-verification succeeds. -/
def envHeal : PipeEnv :=
  { domain := "d".data, repo_url := "https://github.com/o/r.git".data,
    today := "2026-01-01".data,
    audit := .ok {},
    analyze_llm := .ok "{p}".data,
    jparse_plan := fun s => if s = "{p}".data then some plan1 else none,
    ws0 := [("f".data, "a".data)],
    impl_llm := fun _ => .ok "[x]".data,
    jparse_edits := fun s => if s = "[x]".data then some [edAB]
                             else if s = "[y]".data then some [edBC] else none,
    pr_first := .ok "PRURL".data,
    verify := fun k => if k = 0 then vFail else vOk,
    heal_llm := fun _ => .ok "[y]".data }

/-- Environment of a run whose edit-list response parses as JSON under
no candidate: json.loads rejects every string. -/
def envC6 : PipeEnv :=
  { domain := "d".data, repo_url := "https://github.com/o/r.git".data,
    today := "2026-01-01".data,
    audit := .ok {},
    analyze_llm := .ok "{p}".data,
    jparse_plan := fun s => if s = "{p}".data then some plan1 else none,
    ws0 := [("f".data, "a".data)],
    impl_llm := fun _ => .ok "here are your edits!".data,
    jparse_edits := fun _ => none }

/-- Environment of a happy-path run whose verifier finds no checks
(no token configured). -/
def envC7 : PipeEnv :=
  { envHeal with verify := fun _ => { has_token := false } }

/-- Environment whose audit result contains a page object without a
url key. -/
def envC9 : PipeEnv :=
  { domain := "d".data, repo_url := "https://github.com/o/r.git".data,
    audit := .ok { pages := [{}] } }

/-- Environment with two planned changes in one tier of which only one
edit applies. -/
def envC10 : PipeEnv :=
  { envHeal with
    jparse_plan := fun s => if s = "{p}".data then some plan2 else none,
    verify := fun _ => { has_token := false } }

/-- Environment of the two-tier plan where the P0 edit fails to apply
and the P1 edit succeeds. -/
def envC4 : PipeEnv :=
  { domain := "d".data, repo_url := "https://github.com/o/r.git".data,
    today := "2026-01-01".data,
    audit := .ok {},
    analyze_llm := .ok "{p}".data,
    jparse_plan := fun s => if s = "{p}".data then some plan4 else none,
    ws0 := [("f1".data, "a".data), ("f2".data, "b".data)],
    impl_llm := fun i => if i = 0 then .ok "[x0]".data else .ok "[x1]".data,
    jparse_edits := fun s =>
      if s = "[x0]".data then
        some [{ file_path := "f1".data, search := "zzz".data, replace := "q".data }]
      else if s = "[x1]".data then
        some [{ file_path := "f2".data, search := "b".data, replace := "c".data }]
      else none,
    pr_first := .ok "PRURL".data,
    verify := fun _ => { has_token := false } }

/-- The PrEnv slice of envC4. -/
def prEnvC4 : PrEnv := prEnvOf envC4

/-- The workspace after envC4's implementation phase: f2 rewritten. -/
def wsC4 : Workspace := [("f1".data, "a".data), ("f2".data, "c".data)]

/-- Environment whose first pr create fails with a label complaint, so
the label is provisioned and the creation retried. -/
def envLabel : PipeEnv :=
  { envHeal with
    pr_first := .error "could not add label: seo-auto not found".data,
    pr_retry := .ok "PRURL".data,
    verify := fun _ => { has_token := false } }

/-- The status histories of every run that never enters the healing
loop. -/
def noHealHistories : List (List Status) :=
  [[.pending, .auditing, .failed],
   [.pending, .auditing, .analyzing, .failed],
   [.pending, .auditing, .analyzing, .complete],
   [.pending, .auditing, .analyzing, .implementing, .failed],
   [.pending, .auditing, .analyzing, .implementing, .complete],
   [.pending, .auditing, .analyzing, .implementing, .pushing, .failed],
   [.pending, .auditing, .analyzing, .implementing, .pushing, .verifying, .complete]]

/-! Lemmas about substring search and first-occurrence replacement. -/

theorem occursB_cons (n : Str) (c : Char) (t : Str) :
    occursB n (c :: t) = (n.isPrefixOf (c :: t) || occursB n t) := by
  unfold occursB
  by_cases h : n.isPrefixOf (c :: t)
  · simp [splitFirst, h]
  · cases hs : splitFirst n t with
    | none => simp [splitFirst, h, hs]
    | some ps => cases ps with
      | mk p s => simp [splitFirst, h, hs]

theorem countOccur_eq_zero_iff (n h : Str) :
    countOccur n h = 0 ↔ occursB n h = false := by
  induction h with
  | nil =>
    by_cases hn : n = [] <;> simp [countOccur, occursB, splitFirst, hn]
  | cons c t ih =>
    rw [occursB_cons]
    by_cases hp : n.isPrefixOf (c :: t) <;> simp [countOccur, hp, ih]

theorem splitFirst_of_isPrefixOf (n hay : Str) (hn : n ≠ [])
    (h : n.isPrefixOf hay) :
    splitFirst n hay = some ([], hay.drop n.length) := by
  cases hay with
  | nil =>
    rw [List.isPrefixOf_iff_prefix] at h
    exact absurd (List.prefix_nil.mp h) hn
  | cons c t => simp [splitFirst, h]

theorem countOccur_cons (n : Str) (c : Char) (t : Str) :
    countOccur n (c :: t) =
      (if n.isPrefixOf (c :: t) then 1 else 0) + countOccur n t := rfl

theorem splitFirst_decomp (n : Str) :
    ∀ (hay p s : Str), splitFirst n hay = some (p, s) → hay = p ++ n ++ s := by
  intro hay
  induction hay with
  | nil =>
    intro p s h
    unfold splitFirst at h
    by_cases hn : n = []
    · simp only [if_pos hn, Option.some.injEq, Prod.mk.injEq] at h
      simp [hn, ← h.1, ← h.2]
    · simp [hn] at h
  | cons c t ih =>
    intro p s h
    by_cases hp : n.isPrefixOf (c :: t)
    · rw [show splitFirst n (c :: t) = some ([], (c :: t).drop n.length)
          from by simp [splitFirst, hp]] at h
      simp only [Option.some.injEq, Prod.mk.injEq] at h
      obtain ⟨h1, h2⟩ := h
      have hpre : n <+: c :: t := List.isPrefixOf_iff_prefix.mp hp
      obtain ⟨r, hr⟩ := hpre
      subst h1
      rw [← h2, ← hr, List.drop_left, List.nil_append]
    · simp only [splitFirst, if_neg hp] at h
      cases hs : splitFirst n t with
      | none => rw [hs] at h; exact absurd h (by simp)
      | some ps =>
        cases ps with
        | mk p2 s2 =>
          rw [hs] at h
          simp only [Option.some.injEq, Prod.mk.injEq] at h
          have ht := ih p2 s2 hs
          rw [← h.1, ← h.2, ht]
          simp

theorem countOccur_decomp_pos (n p s : Str) :
    1 ≤ countOccur n (p ++ n ++ s) := by
  induction p with
  | nil =>
    simp only [List.nil_append]
    cases hn : n with
    | nil =>
      simp only [List.nil_append]
      induction s with
      | nil => simp [countOccur]
      | cons c t ih2 =>
        rw [countOccur_cons]
        omega
    | cons a b =>
      have hp : (a :: b).isPrefixOf ((a :: b) ++ s) :=
        List.isPrefixOf_iff_prefix.mpr (List.prefix_append _ _)
      rw [show ((a :: b) : Str) ++ s = a :: (b ++ s) from rfl] at hp
      rw [show ((a :: b) : Str) ++ s = a :: (b ++ s) from rfl]
      rw [countOccur_cons, if_pos hp]
      omega
  | cons c p2 ih =>
    rw [show (c :: p2) ++ n ++ s = c :: (p2 ++ n ++ s) from by simp]
    rw [countOccur_cons]
    omega

theorem splitFirst_unique (n s : Str) (hn : n ≠ []) :
    ∀ p, countOccur n (p ++ n ++ s) = 1 →
      splitFirst n (p ++ n ++ s) = some (p, s) := by
  intro p
  induction p with
  | nil =>
    intro _
    simp only [List.nil_append]
    rw [splitFirst_of_isPrefixOf n (n ++ s) hn
      (List.isPrefixOf_iff_prefix.mpr (List.prefix_append _ _))]
    rw [List.drop_left]
  | cons c p2 ih =>
    intro hc
    rw [show (c :: p2) ++ n ++ s = c :: (p2 ++ n ++ s) from by simp] at hc ⊢
    rw [countOccur_cons] at hc
    have htail : 1 ≤ countOccur n (p2 ++ n ++ s) := countOccur_decomp_pos n p2 s
    by_cases hp : n.isPrefixOf (c :: (p2 ++ n ++ s))
    · rw [if_pos hp] at hc; omega
    · rw [if_neg hp] at hc
      simp only [Nat.zero_add] at hc
      have hrec := ih hc
      simp only [splitFirst, if_neg hp]
      rw [hrec]

theorem applyEditContent_isOk_iff (content search rep : Str) :
    (∃ r, applyEditContent content search rep = .ok r) ↔
      (occursB search content = true ∨
        ∃ l ∈ splitOnChar '\n' content,
          occursB (collapseWS search) (collapseWS l) = true) := by
  unfold applyEditContent
  cases hsf : splitFirst search content with
  | some ps =>
    simp [occursB, hsf]
  | none =>
    cases hfind : (splitOnChar '\n' content).find?
        (fun l => occursB (collapseWS search) (collapseWS l)) with
    | none =>
      constructor
      · rintro ⟨r, hr⟩; exact absurd hr (by simp)
      · rintro (hocc | ⟨l, hl, hocc⟩)
        · rw [occursB, hsf] at hocc; exact absurd hocc (by simp)
        · rw [List.find?_eq_none] at hfind
          exact absurd hocc (by simpa using hfind l hl)
    | some l =>
      constructor
      · rintro ⟨r, _⟩
        refine Or.inr ⟨l, List.mem_of_find?_eq_some hfind, ?_⟩
        simpa using List.find?_some hfind
      · intro _
        exact ⟨_, rfl⟩

/-- Claim C5 (amended): an edit succeeds exactly when its file path and
anchor are non-empty, the file exists, and the anchor occurs verbatim or
— whitespace-collapsed — within at least one line (the code takes the
first such line; the claim's "exactly one line" is refuted by the
counterexample below).  Failure returns an error without producing any
workspace, so a failing edit never mutates the file. -/
theorem apply_edit_success_iff (w : Workspace) (e : Edit) :
    (∃ w2, apply_edit w e = .ok w2) ↔
      (e.file_path ≠ [] ∧ e.search ≠ [] ∧
        ∃ content, wsGet w e.file_path = some content ∧
          (occursB e.search content = true ∨
            ∃ l ∈ splitOnChar '\n' content,
              occursB (collapseWS e.search) (collapseWS l) = true)) := by
  unfold apply_edit
  by_cases hf : e.file_path = [] ∨ e.search = []
  · simp only [if_pos hf]
    constructor
    · rintro ⟨w2, hw2⟩; cases hw2
    · rintro ⟨h1, h2, _⟩
      rcases hf with hf | hf
      · exact absurd hf h1
      · exact absurd hf h2
  · push_neg at hf
    simp only [if_neg (show ¬(e.file_path = [] ∨ e.search = []) from by
      simp [hf.1, hf.2])]
    cases hw : wsGet w e.file_path with
    | none =>
      constructor
      · rintro ⟨w2, hw2⟩; cases hw2
      · rintro ⟨_, _, content, hc, _⟩; cases hc
    | some content =>
      have hiff := applyEditContent_isOk_iff content e.search e.replace
      constructor
      · rintro ⟨w2, hw2⟩
        refine ⟨hf.1, hf.2, content, rfl, ?_⟩
        apply hiff.mp
        cases hX : applyEditContent content e.search e.replace with
        | ok r => exact ⟨r, rfl⟩
        | error err =>
          exfalso
          have hw2b : Except.map (fun c2 => wsSet w e.file_path c2)
              (applyEditContent content e.search e.replace) = Except.ok w2 := hw2
          rw [hX] at hw2b
          exact absurd hw2b (by simp [Except.map])
      · rintro ⟨_, _, content2, hc2, hocc⟩
        have hceq : content = content2 := Option.some.inj hc2
        subst hceq
        obtain ⟨r, hr⟩ := hiff.mpr hocc
        refine ⟨wsSet w e.file_path r, ?_⟩
        show Except.map (fun c2 => wsSet w e.file_path c2)
            (applyEditContent content e.search e.replace)
          = Except.ok (wsSet w e.file_path r)
        rw [hr]
        rfl

/-- Claim C5 counterexample: with no verbatim occurrence and the
collapsed anchor occurring in two distinct lines, the edit nevertheless
succeeds, replacing the first matching line — refuting "succeeds only
if ... within exactly one line". -/
theorem apply_edit_two_line_match_succeeds :
    occursB "a  b".data "q a b q\nz a b z".data = false ∧
    ((splitOnChar '\n' "q a b q\nz a b z".data).filter
        (fun l => occursB (collapseWS "a  b".data) (collapseWS l))).length = 2 ∧
    apply_edit [("f".data, "q a b q\nz a b z".data)]
        { file_path := "f".data, search := "a  b".data, replace := "R".data }
      = .ok [("f".data, "R\nz a b z".data)] := by
  decide

/-- Claim C8 (amended): on content holding exactly one occurrence of the
anchor, the edit yields precisely the content with that occurrence
replaced; the replacement then occurs at least once (exactly once only
when it does not already occur elsewhere — refuted otherwise by the
counterexample below); and when no new occurrence of the anchor was
re-created — verbatim or whitespace-collapsed in a line — a second
application fails with the anchor-not-found error. -/
theorem apply_edit_round_trip (content search rep pre suff : Str)
    (hn : search ≠ [])
    (hdec : content = pre ++ search ++ suff)
    (hcount : countOccur search content = 1)
    (hrep : occursB search rep = false) :
    applyEditContent content search rep = .ok (pre ++ rep ++ suff) ∧
    1 ≤ countOccur rep (pre ++ rep ++ suff) ∧
    (occursB search (pre ++ rep ++ suff) = false →
      countOccur search (pre ++ rep ++ suff) = 0 ∧
      ((∀ l ∈ splitOnChar '\n' (pre ++ rep ++ suff),
          occursB (collapseWS search) (collapseWS l) = false) →
        applyEditContent (pre ++ rep ++ suff) search rep = .error .notFound)) := by
  subst hdec
  have hsf := splitFirst_unique search suff hn pre hcount
  refine ⟨?_, countOccur_decomp_pos rep pre suff, ?_⟩
  · unfold applyEditContent replaceFirst
    rw [hsf]
  · intro hno
    refine ⟨(countOccur_eq_zero_iff _ _).mpr hno, ?_⟩
    intro hlines
    have hnone : splitFirst search (pre ++ rep ++ suff) = none := by
      unfold occursB at hno
      cases hx : splitFirst search (pre ++ rep ++ suff) with
      | none => rfl
      | some ps => rw [hx] at hno; cases hno
    have hfind : (splitOnChar '\n' (pre ++ rep ++ suff)).find?
        (fun l => occursB (collapseWS search) (collapseWS l)) = none := by
      rw [List.find?_eq_none]
      intro l hl
      simp [hlines l hl]
    unfold applyEditContent
    rw [hnone, hfind]

/-- Claim C8 witness: the round-trip theorem applied at a concrete
uniquely-anchored content. -/
theorem apply_edit_round_trip_witness :
    countOccur "a".data "xax".data = 1 ∧
    applyEditContent "xax".data "a".data "R".data = .ok "xRx".data :=
  ⟨by decide,
   (apply_edit_round_trip "xax".data "a".data "R".data "x".data "x".data
      (by decide) (by decide) (by decide) (by decide)).1⟩

/-- Claim C8 counterexample: content xax holds exactly one occurrence of
anchor a and replacement x does not contain the anchor, yet the result
xxx holds three occurrences of the replacement, not one. -/
theorem apply_edit_round_trip_counterexample :
    countOccur "a".data "xax".data = 1 ∧
    occursB "a".data "x".data = false ∧
    applyEditContent "xax".data "a".data "x".data = .ok "xxx".data ∧
    countOccur "x".data "xxx".data ≠ 1 := by
  decide

/-! Lemmas about the healing loop's observable update sequence. -/

theorem heal_go_statuses (env : PipeEnv) (slug branch : Str) :
    ∀ (attempts : List Nat) (w : Workspace) (gs : GitState) (dr : VerifyResult),
      ∃ k, (heal_go env slug branch w gs dr attempts).upds.filterMap
          (fun u => u.status)
        = List.replicate k Status.verifying ++ [Status.complete] := by
  intro attempts
  induction attempts with
  | nil =>
    intro w gs dr
    exact ⟨0, by simp [heal_go]⟩
  | cons attempt rest ih =>
    intro w gs dr
    rcases hhb : heal_build (env.heal_llm attempt) env.jparse_edits
        (env.heal_commit_fails attempt) (env.heal_commit_stderr attempt)
        (env.heal_push_ok attempt) (env.heal_push_stderr attempt) w gs branch
      with ⟨hr, w2, gs2, hTr⟩
    simp only [heal_go, hhb]
    by_cases hhealed : hr.healed = false
    · rw [if_pos hhealed]
      by_cases hmax : attempt = maxHealAttempts
      · rw [if_pos hmax]
        exact ⟨0, by simp⟩
      · rw [if_neg hmax]
        obtain ⟨k, hk⟩ := ih w2 gs2 dr
        exact ⟨k, by simp [hk]⟩
    · rw [if_neg hhealed]
      rcases hvd : verify_deploy (env.verify attempt) slug branch 300 15
        with ⟨dr2, vTr⟩
      simp only [hvd]
      cases hst : dr2.status with
      | success => exact ⟨1, by simp⟩
      | no_checks => exact ⟨1, by simp⟩
      | timeout => exact ⟨1, by simp⟩
      | failed =>
        obtain ⟨k, hk⟩ := ih w2 gs2 dr2
        exact ⟨k + 1, by simp [hk, List.replicate_succ]⟩
      | fuelOut =>
        obtain ⟨k, hk⟩ := ih w2 gs2 dr2
        exact ⟨k + 1, by simp [hk, List.replicate_succ]⟩

theorem heal_go_heal_writes (env : PipeEnv) (slug branch : Str) :
    ∀ (attempts : List Nat) (w : Workspace) (gs : GitState) (dr : VerifyResult),
      (heal_go env slug branch w gs dr attempts).upds.filterMap
          (fun u => u.heal_attempts) <+: attempts := by
  intro attempts
  induction attempts with
  | nil =>
    intro w gs dr
    simp [heal_go]
  | cons attempt rest ih =>
    intro w gs dr
    rcases hhb : heal_build (env.heal_llm attempt) env.jparse_edits
        (env.heal_commit_fails attempt) (env.heal_commit_stderr attempt)
        (env.heal_push_ok attempt) (env.heal_push_stderr attempt) w gs branch
      with ⟨hr, w2, gs2, hTr⟩
    simp only [heal_go, hhb]
    by_cases hhealed : hr.healed = false
    · rw [if_pos hhealed]
      by_cases hmax : attempt = maxHealAttempts
      · rw [if_pos hmax]
        simp
      · rw [if_neg hmax]
        have hpre := ih w2 gs2 dr
        have hcons : (attempt :: (heal_go env slug branch w2 gs2 dr rest).upds.filterMap
              (fun u => u.heal_attempts)) <+: attempt :: rest :=
          List.cons_prefix_cons.mpr ⟨rfl, hpre⟩
        simpa using hcons
    · rw [if_neg hhealed]
      rcases hvd : verify_deploy (env.verify attempt) slug branch 300 15
        with ⟨dr2, vTr⟩
      simp only [hvd]
      cases hst : dr2.status with
      | success => simp
      | no_checks => simp
      | timeout => simp
      | failed =>
        have hpre := ih w2 gs2 dr2
        have hcons : (attempt :: (heal_go env slug branch w2 gs2 dr2 rest).upds.filterMap
              (fun u => u.heal_attempts)) <+: attempt :: rest :=
          List.cons_prefix_cons.mpr ⟨rfl, hpre⟩
        simpa using hcons
      | fuelOut =>
        have hpre := ih w2 gs2 dr2
        have hcons : (attempt :: (heal_go env slug branch w2 gs2 dr2 rest).upds.filterMap
              (fun u => u.heal_attempts)) <+: attempt :: rest :=
          List.cons_prefix_cons.mpr ⟨rfl, hpre⟩
        simpa using hcons

/-- Catalogue of the observable status and heal_attempts sequences of a
run: either a run that never heals, with one of seven fixed forward
histories and no heal_attempts writes, or a healing run whose history is
the forward prefix ending in healing followed by some number of
verifying writes and a final complete, with the heal_attempts writes a
prefix of 1..max_heal_attempts. -/
theorem run_observables (env : PipeEnv) :
    (statusHistory (run_seo_pipeline env) ∈ noHealHistories ∧
      healWrites (run_seo_pipeline env) = []) ∨
    (∃ k, statusHistory (run_seo_pipeline env)
        = [.pending, .auditing, .analyzing, .implementing, .pushing, .verifying,
           .healing] ++ (List.replicate k Status.verifying ++ [Status.complete]) ∧
      healWrites (run_seo_pipeline env) <+: List.range' 1 maxHealAttempts) := by
  unfold run_seo_pipeline
  cases haud : env.audit with
  | error e =>
    exact Or.inl ⟨by simp [statusHistory, exceptionUpd, noHealHistories],
                  by simp [healWrites, exceptionUpd]⟩
  | ok audit =>
    cases herr : audit.err with
    | some ae =>
      try simp only [herr]
      exact Or.inl ⟨by simp [statusHistory, noHealHistories],
                    by simp [healWrites]⟩
    | none =>
      try simp only [herr]
      cases haid : audit.audit_id with
      | some aid =>
        try simp only [haid]
        cases han : analyze_seo_issues env.analyze_llm env.jparse_plan audit (riOf env) with
        | error e =>
          try simp only [han]
          exact Or.inl ⟨by simp [statusHistory, exceptionUpd, noHealHistories],
                        by simp [healWrites, exceptionUpd]⟩
        | ok plan =>
          try simp only [han]
          cases hperr : planErrTruthy plan with
          | true =>
            exact Or.inl ⟨by simp [statusHistory, noHealHistories],
                          by simp [healWrites]⟩
          | false =>
            simp only [Bool.false_eq_true, if_false]
            by_cases htp : totalPlannedChanges plan = 0
            · rw [if_pos htp]
              exact Or.inl ⟨by simp [statusHistory, noHealHistories],
                            by simp [healWrites]⟩
            · rw [if_neg htp]
              cases hcl : env.clone_ok with
              | error e =>
                try simp only [hcl]
                exact Or.inl ⟨by simp [statusHistory, exceptionUpd, noHealHistories],
                              by simp [healWrites, exceptionUpd]⟩
              | ok u =>
                try simp only [hcl]
                rcases himp : implement_seo_changes env.impl_llm env.jparse_edits
                    plan env.ws0 with ⟨w1, trs⟩
                try simp only [himp]
                by_cases happ : appliedSum trs = 0
                · rw [if_pos happ]
                  exact Or.inl ⟨by simp [statusHistory, noHealHistories],
                                by simp [healWrites]⟩
                · rw [if_neg happ]
                  rcases hcr : create_seo_pr (prEnvOf env) w1 env.ws0 env.repo_url
                      (branchOf env) env.base_branch plan env.domain with ⟨cres, prTr⟩
                  try simp only [hcr]
                  cases cres with
                  | error e =>
                    exact Or.inl ⟨by simp [statusHistory, exceptionUpd, noHealHistories],
                                  by simp [healWrites, exceptionUpd]⟩
                  | ok prRes =>
                    dsimp only
                    by_cases hpe : prRes.error ≠ [] ∧ prRes.pr_url = []
                    · rw [if_pos hpe]
                      exact Or.inl ⟨by simp [statusHistory, noHealHistories],
                                    by simp [healWrites]⟩
                    · rw [if_neg hpe]
                      rcases hv : verify_deploy (env.verify 0) (repoSlug env.repo_url)
                          (branchOf env) 300 15 with ⟨dr0, vTr0⟩
                      try simp only [hv]
                      cases hst : dr0.status with
                      | success =>
                        try simp only [hst]
                        exact Or.inl ⟨by simp [statusHistory, noHealHistories],
                                      by simp [healWrites]⟩
                      | no_checks =>
                        try simp only [hst]
                        exact Or.inl ⟨by simp [statusHistory, noHealHistories],
                                      by simp [healWrites]⟩
                      | timeout =>
                        try simp only [hst]
                        exact Or.inl ⟨by simp [statusHistory, noHealHistories],
                                      by simp [healWrites]⟩
                      | failed =>
                        try simp only [hst]
                        right
                        obtain ⟨k, hk⟩ := heal_go_statuses env (repoSlug env.repo_url)
                          (branchOf env) (List.range' 1 maxHealAttempts) w1 prRes.git dr0
                        refine ⟨k, ?_, ?_⟩
                        · simp [statusHistory, hk]
                        · have hw := heal_go_heal_writes env (repoSlug env.repo_url)
                            (branchOf env) (List.range' 1 maxHealAttempts) w1 prRes.git dr0
                          simpa [healWrites] using hw
                      | fuelOut =>
                        try simp only [hst]
                        right
                        obtain ⟨k, hk⟩ := heal_go_statuses env (repoSlug env.repo_url)
                          (branchOf env) (List.range' 1 maxHealAttempts) w1 prRes.git dr0
                        refine ⟨k, ?_, ?_⟩
                        · simp [statusHistory, hk]
                        · have hw := heal_go_heal_writes env (repoSlug env.repo_url)
                            (branchOf env) (List.range' 1 maxHealAttempts) w1 prRes.git dr0
                          simpa [healWrites] using hw
      | none =>
        try simp only [haid]
        cases han : analyze_seo_issues env.analyze_llm env.jparse_plan audit (riOf env) with
        | error e =>
          try simp only [han]
          exact Or.inl ⟨by simp [statusHistory, exceptionUpd, noHealHistories],
                        by simp [healWrites, exceptionUpd]⟩
        | ok plan =>
          try simp only [han]
          cases hperr : planErrTruthy plan with
          | true =>
            exact Or.inl ⟨by simp [statusHistory, noHealHistories],
                          by simp [healWrites]⟩
          | false =>
            simp only [Bool.false_eq_true, if_false]
            by_cases htp : totalPlannedChanges plan = 0
            · rw [if_pos htp]
              exact Or.inl ⟨by simp [statusHistory, noHealHistories],
                            by simp [healWrites]⟩
            · rw [if_neg htp]
              cases hcl : env.clone_ok with
              | error e =>
                try simp only [hcl]
                exact Or.inl ⟨by simp [statusHistory, exceptionUpd, noHealHistories],
                              by simp [healWrites, exceptionUpd]⟩
              | ok u =>
                try simp only [hcl]
                rcases himp : implement_seo_changes env.impl_llm env.jparse_edits
                    plan env.ws0 with ⟨w1, trs⟩
                try simp only [himp]
                by_cases happ : appliedSum trs = 0
                · rw [if_pos happ]
                  exact Or.inl ⟨by simp [statusHistory, noHealHistories],
                                by simp [healWrites]⟩
                · rw [if_neg happ]
                  rcases hcr : create_seo_pr (prEnvOf env) w1 env.ws0 env.repo_url
                      (branchOf env) env.base_branch plan env.domain with ⟨cres, prTr⟩
                  try simp only [hcr]
                  cases cres with
                  | error e =>
                    exact Or.inl ⟨by simp [statusHistory, exceptionUpd, noHealHistories],
                                  by simp [healWrites, exceptionUpd]⟩
                  | ok prRes =>
                    dsimp only
                    by_cases hpe : prRes.error ≠ [] ∧ prRes.pr_url = []
                    · rw [if_pos hpe]
                      exact Or.inl ⟨by simp [statusHistory, noHealHistories],
                                    by simp [healWrites]⟩
                    · rw [if_neg hpe]
                      rcases hv : verify_deploy (env.verify 0) (repoSlug env.repo_url)
                          (branchOf env) 300 15 with ⟨dr0, vTr0⟩
                      try simp only [hv]
                      cases hst : dr0.status with
                      | success =>
                        try simp only [hst]
                        exact Or.inl ⟨by simp [statusHistory, noHealHistories],
                                      by simp [healWrites]⟩
                      | no_checks =>
                        try simp only [hst]
                        exact Or.inl ⟨by simp [statusHistory, noHealHistories],
                                      by simp [healWrites]⟩
                      | timeout =>
                        try simp only [hst]
                        exact Or.inl ⟨by simp [statusHistory, noHealHistories],
                                      by simp [healWrites]⟩
                      | failed =>
                        try simp only [hst]
                        right
                        obtain ⟨k, hk⟩ := heal_go_statuses env (repoSlug env.repo_url)
                          (branchOf env) (List.range' 1 maxHealAttempts) w1 prRes.git dr0
                        refine ⟨k, ?_, ?_⟩
                        · simp [statusHistory, hk]
                        · have hw := heal_go_heal_writes env (repoSlug env.repo_url)
                            (branchOf env) (List.range' 1 maxHealAttempts) w1 prRes.git dr0
                          simpa [healWrites] using hw
                      | fuelOut =>
                        try simp only [hst]
                        right
                        obtain ⟨k, hk⟩ := heal_go_statuses env (repoSlug env.repo_url)
                          (branchOf env) (List.range' 1 maxHealAttempts) w1 prRes.git dr0
                        refine ⟨k, ?_, ?_⟩
                        · simp [statusHistory, hk]
                        · have hw := heal_go_heal_writes env (repoSlug env.repo_url)
                            (branchOf env) (List.range' 1 maxHealAttempts) w1 prRes.git dr0
                          simpa [healWrites] using hw

theorem chain_replicate_heal (k : Nat) :
    List.Chain' phaseStep
      (List.replicate k Status.verifying ++ [Status.complete]) := by
  induction k with
  | zero => simp
  | succ n ih =>
    rw [List.replicate_succ, List.cons_append]
    rw [List.chain'_cons']
    refine ⟨?_, ih⟩
    intro b hb
    cases n with
    | zero =>
      simp at hb
      subst hb
      exact Or.inl (by decide)
    | succ m =>
      rw [List.replicate_succ, List.cons_append, List.head?_cons,
        Option.mem_some_iff] at hb
      subst hb
      exact Or.inl (by decide)

/-- Claim C1 (amended): the sequence of status values held by the Run
record only moves forward through the phase ordering pending, auditing,
analyzing, implementing, pushing, verifying, healing, complete|failed —
early jumps to a terminal state included — with one exception the claim
does not admit: when a heal attempt pushes a fix, the healer hands
control back to the verifier, writing verifying (possibly repeatedly)
after healing.  Every consecutive pair of written statuses either moves
forward or is this healing-to-verifying handback. -/
theorem status_forward_except_heal_handback (env : PipeEnv) :
    List.Chain' phaseStep (statusHistory (run_seo_pipeline env)) := by
  rcases run_observables env with ⟨hmem, _⟩ | ⟨k, hk, _⟩
  · simp only [noHealHistories, List.mem_cons, List.not_mem_nil, or_false] at hmem
    rcases hmem with h | h | h | h | h | h | h <;> rw [h] <;>
      simp [List.chain'_cons, phaseStep, phaseIdx]
  · rw [hk]
    rw [show ([Status.pending, .auditing, .analyzing, .implementing, .pushing,
        .verifying, .healing]
          ++ (List.replicate k Status.verifying ++ [Status.complete]))
        = ([Status.pending, .auditing, .analyzing, .implementing, .pushing,
        .verifying, .healing])
          ++ (List.replicate k Status.verifying ++ [Status.complete]) from rfl]
    apply List.Chain'.append
    · simp [List.chain'_cons, phaseStep, phaseIdx]
    · exact chain_replicate_heal k
    · intro x hx y hy
      simp at hx
      subst hx
      cases k with
      | zero =>
        simp at hy
        subst hy
        exact Or.inl (by decide)
      | succ m =>
        rw [List.replicate_succ, List.cons_append, List.head?_cons,
          Option.mem_some_iff] at hy
        subst hy
        exact Or.inr ⟨rfl, rfl⟩

/-- Claim C1 counterexample: a run whose first verification fails, whose
heal attempt pushes a fix and whose re-verification succeeds writes
verifying after healing — a phase that precedes an already-written
phase, contradicting the claim as stated. -/
theorem status_forward_counterexample :
    statusHistory (run_seo_pipeline envHeal)
      = [.pending, .auditing, .analyzing, .implementing, .pushing, .verifying,
         .healing, .verifying, .complete] ∧
    ¬ List.Pairwise phaseForward (statusHistory (run_seo_pipeline envHeal)) := by
  constructor
  · decide
  · decide

theorem prefix_range2 {ws : List Nat} (h : ws <+: [1, 2]) :
    ws = [] ∨ ws = [1] ∨ ws = [1, 2] := by
  rcases h with ⟨t, ht⟩
  cases ws with
  | nil => exact Or.inl rfl
  | cons a w1 =>
    cases w1 with
    | nil =>
      simp at ht
      exact Or.inr (Or.inl (by simp [ht.1]))
    | cons b w2 =>
      cases w2 with
      | nil =>
        simp at ht
        exact Or.inr (Or.inr (by simp [ht.1, ht.2.1]))
      | cons c w3 =>
        simp at ht

/-- Claim C3: the heal_attempts field starts at 0 (the column default
the record is created with), the sequence of values written to it is
monotonically non-decreasing, and no written value ever exceeds the
configured maximum of 2. -/
theorem heal_attempts_monotone_bounded (env : PipeEnv) :
    List.Chain' (fun a b => a ≤ b) (0 :: healWrites (run_seo_pipeline env)) ∧
    ∀ x ∈ healWrites (run_seo_pipeline env), x ≤ maxHealAttempts := by
  rcases run_observables env with ⟨_, hw⟩ | ⟨_, _, hw⟩
  · rw [hw]
    exact ⟨by simp, by simp⟩
  · rw [show List.range' 1 maxHealAttempts = [1, 2] from rfl] at hw
    rcases prefix_range2 hw with h | h | h <;> rw [h] <;>
      exact ⟨by simp [List.chain'_cons], by simp [maxHealAttempts]⟩

/-- Claim C4 (evaluation at the failing input): with a two-tier plan
where tier P0's edit fails to apply and tier P1's edit succeeds, every
edit is already in the workspace before the commit loop runs, so tier
P0's turn finds the dirty tree and commits tier P1's change under the
[SEO P0] label, while tier P1 — the only tier with a successfully
applied edit — produces no commit: one commit total, containing changes
not attributable to its labelled tier. -/
theorem tier_commit_not_per_tier :
    ((implement_seo_changes envC4.impl_llm envC4.jparse_edits plan4 envC4.ws0).2.map
        (fun r => r.edits_applied)) = [0, 1] ∧
    (implement_seo_changes envC4.impl_llm envC4.jparse_edits plan4 envC4.ws0).1 = wsC4 ∧
    ((create_seo_pr prEnvC4 wsC4 envC4.ws0 envC4.repo_url (branchOf envC4)
        envC4.base_branch plan4 envC4.domain).1.map
      (fun r => (r.git.commits.map (fun c => c.msg),
                 r.git.commits.map (fun c => c.tree),
                 r.changes_made)))
      = .ok ([("[SEO P0] d: d0".data)], [wsC4], 1) := by
  refine ⟨by decide, by decide, by rfl⟩

/-- Claim C9 (evaluation at the failing input): the audit summary
indexes each page's url directly, so a page object without a url raises
KeyError and the run fails, although every other missing field is read
through a default; a page carrying only a url is summarised without
error. -/
theorem audit_missing_url_fails_run :
    buildSummaryParts { pages := [{}] } {} = .error ("'url'".data) ∧
    (run_seo_pipeline envC9).status = .failed ∧
    (run_seo_pipeline envC9).error = "'url'".data ∧
    (∃ parts, buildSummaryParts { pages := [{ url := some "u".data }] } {}
        = .ok parts) := by
  exact ⟨by decide, by decide, by decide, ⟨_, rfl⟩⟩

/-- Claim C6 counterexample: when the edit-list response fails resilient
parsing in every tier (json.loads rejects every candidate), the run ends
complete — not failed as the claim states — with the no-changes note and
without the raw response attached. -/
theorem unparseable_edits_complete_not_failed :
    (run_seo_pipeline envC6).status = .complete ∧
    (run_seo_pipeline envC6).status ≠ .failed ∧
    (run_seo_pipeline envC6).error
      = "No changes could be applied to repo files".data := by
  exact ⟨by decide, by decide, by decide⟩

theorem extract_edits_of_jp_none (jp : Str → Option (List Edit))
    (hjp : ∀ s, jp s = none) (text : Str) :
    extract_edits jp text = .error () ∨ extract_edits jp text = .ok [] := by
  unfold extract_edits
  cases hsf : stripFences text with
  | error e =>
    left
    cases e
    simp [hsf, Bind.bind, Except.bind]
  | ok t =>
    right
    simp only [hsf, Bind.bind, Except.bind, hjp, ite_self]
    cases hfi : firstIdxChar '[' t with
    | none => cases hla : lastIdxChar ']' t <;> simp [pure, Except.pure]
    | some i =>
      cases hla : lastIdxChar ']' t with
      | none => simp [pure, Except.pure]
      | some j =>
        by_cases hij : i < j
        · simp [hij, hjp, pure, Except.pure]
        · simp [hij, pure, Except.pure]

theorem implementGo_applied_zero (implLLM : Nat → Except Str Str)
    (jp : Str → Option (List Edit)) (hjp : ∀ s, jp s = none) :
    ∀ (tiers : List Tier) (w : Workspace) (idx : Nat),
      appliedSum (implementGo implLLM jp w idx tiers).2 = 0 := by
  intro tiers
  induction tiers with
  | nil =>
    intro w idx
    simp [implementGo, appliedSum]
  | cons t rest ih =>
    intro w idx
    unfold implementGo
    rcases hgo : implementGo implLLM jp w (idx + 1) rest with ⟨wr, rs⟩
    have ihz : appliedSum rs = 0 := by
      have := ih w (idx + 1)
      rw [hgo] at this
      simpa using this
    by_cases hch : tierChanges t = []
    · rw [if_pos hch]
      simpa [appliedSum] using ihz
    · rw [if_neg hch]
      cases hllm : implLLM idx with
      | error e =>
        simpa [appliedSum] using ihz
      | ok raw =>
        dsimp only
        rcases extract_edits_of_jp_none jp hjp raw with he | he
        · rw [he]
          simpa [appliedSum] using ihz
        · rw [he]
          simpa [applyEditsFold, hgo, appliedSum] using ihz

/-- Claim C6 (amended): when the model's edit-list response fails
resilient parsing in every tier — json.loads accepts no candidate under
any fallback — the parser returns an empty edit list per tier, zero
edits apply, and the Run ends with status complete (not failed), the
explanatory note "No changes could be applied to repo files", and
changes_made 0; the raw response text is not attached. -/
theorem unparseable_edits_run_completes (env : PipeEnv) (audit : AuditResult)
    (plan : Plan)
    (h1 : env.audit = .ok audit) (h2 : audit.err = none)
    (h3 : analyze_seo_issues env.analyze_llm env.jparse_plan audit (riOf env)
            = .ok plan)
    (h4 : planErrTruthy plan = false)
    (h5 : totalPlannedChanges plan ≠ 0)
    (h6 : env.clone_ok = .ok ())
    (hjp : ∀ s, env.jparse_edits s = none) :
    (run_seo_pipeline env).status = .complete ∧
    (run_seo_pipeline env).error
      = "No changes could be applied to repo files".data ∧
    (run_seo_pipeline env).changes_made = 0 := by
  unfold run_seo_pipeline
  rw [h1]
  rcases himp : implement_seo_changes env.impl_llm env.jparse_edits plan env.ws0
    with ⟨w1, trs⟩
  have happ : appliedSum trs = 0 := by
    have := implementGo_applied_zero env.impl_llm env.jparse_edits hjp
      (planTiers plan) env.ws0 0
    rw [show implementGo env.impl_llm env.jparse_edits env.ws0 0 (planTiers plan)
        = implement_seo_changes env.impl_llm env.jparse_edits plan env.ws0
      from rfl, himp] at this
    simpa using this
  cases haid : audit.audit_id <;>
    simp [h2, h3, h4, h5, h6, himp, happ, haid]

/-- Claim C6 witness: the amended completion theorem applied at the
concrete unparseable-response environment. -/
theorem unparseable_edits_run_completes_witness :
    planErrTruthy plan1 = false ∧ totalPlannedChanges plan1 ≠ 0 ∧
    (run_seo_pipeline envC6).status = .complete :=
  ⟨by decide, by decide,
   (unparseable_edits_run_completes envC6 {} plan1 rfl rfl (by decide) (by decide)
      (by decide) rfl (fun s => rfl)).1⟩

theorem verifyLoop_no_fuelOut (env : VerifyEnv) (slug branch : Str)
    (maxWait p : Nat) (hp : 0 < p) :
    ∀ (fuel iter : Nat) (lastSt : Bool), maxWait - iter * p < fuel →
      (verifyLoop env slug branch maxWait p fuel iter lastSt).1.status
        ≠ VStatus.fuelOut := by
  intro fuel
  induction fuel with
  | zero =>
    intro iter lastSt h
    omega
  | succ n ih =>
    intro iter lastSt h
    unfold verifyLoop
    by_cases hel : iter * p < maxWait
    · rw [if_pos hel]
      have hmul : (iter + 1) * p = iter * p + p := by ring
      have hb : maxWait - (iter + 1) * p < n := by omega
      cases hsha : (env.rounds iter).sha with
      | error e => simp [hsha]
      | ok sha =>
        simp only [hsha]
        by_cases hempty : sha = []
        · rw [if_pos hempty]
          simp
        · rw [if_neg hempty]
          cases hcr : (env.rounds iter).check_runs with
          | none =>
            simp only [hcr]
            exact ih (iter + 1) lastSt hb
          | some crs =>
            simp only [hcr]
            cases hdc : findDeployCheck crs with
            | none =>
              simp only [hdc]
              cases hfs : (env.rounds iter).statuses.bind findDeployStatus with
              | some st =>
                simp only [hfs]
                by_cases hsu : st.state = "success".data
                · rw [if_pos hsu]
                  simp
                · rw [if_neg hsu]
                  by_cases hfe : st.state = "failure".data ∨ st.state = "error".data
                  · rw [if_pos hfe]
                    simp
                  · rw [if_neg hfe]
                    by_cases hgr : ¬ (st.state ≠ []) ∧ iter * p > 60
                    · rw [if_pos hgr]
                      simp
                    · rw [if_neg hgr]
                      exact ih (iter + 1) _ hb
              | none =>
                simp only [hfs]
                by_cases hgr : ¬ lastSt = true ∧ iter * p > 60
                · rw [if_pos hgr]
                  simp
                · rw [if_neg hgr]
                  exact ih (iter + 1) lastSt hb
            | some dc =>
              simp only [hdc]
              by_cases hcomp : dc.status = "completed".data
              · rw [if_pos hcomp]
                by_cases hconc : dc.conclusion = "success".data
                · rw [if_pos hconc]
                  simp
                · rw [if_neg hconc]
                  by_cases hsum : dc.summary.take 2000 ≠ []
                  · rw [if_pos hsum]
                    simp
                  · rw [if_neg hsum]
                    simp
              · rw [if_neg hcomp]
                exact ih (iter + 1) _ hb
    · rw [if_neg hel]
      simp

/-- Claim C7: every invocation of verify_deploy with a positive poll
interval terminates and returns exactly one of success, failed,
no_checks or timeout — the fuel the wrapper supplies never runs out —
and the orchestrator treats a first verification ending in no_checks or
timeout as the Run completing, not failing. -/
theorem verify_deploy_terminates_and_classifies :
    (∀ (venv : VerifyEnv) (slug branch : Str) (maxWait p : Nat), 0 < p →
      (verify_deploy venv slug branch maxWait p).1.status ≠ VStatus.fuelOut ∧
      ((verify_deploy venv slug branch maxWait p).1.status = .success ∨
       (verify_deploy venv slug branch maxWait p).1.status = .failed ∨
       (verify_deploy venv slug branch maxWait p).1.status = .no_checks ∨
       (verify_deploy venv slug branch maxWait p).1.status = .timeout)) ∧
    (∀ (env : PipeEnv) (audit : AuditResult) (plan : Plan),
      env.audit = .ok audit → audit.err = none →
      analyze_seo_issues env.analyze_llm env.jparse_plan audit (riOf env)
        = .ok plan →
      planErrTruthy plan = false →
      totalPlannedChanges plan ≠ 0 →
      env.clone_ok = .ok () →
      appliedSum (implement_seo_changes env.impl_llm env.jparse_edits plan
        env.ws0).2 ≠ 0 →
      (∃ prRes,
        (create_seo_pr (prEnvOf env)
            (implement_seo_changes env.impl_llm env.jparse_edits plan env.ws0).1
            env.ws0 env.repo_url (branchOf env) env.base_branch plan
            env.domain).1 = .ok prRes ∧
        ¬ (prRes.error ≠ [] ∧ prRes.pr_url = [])) →
      ((verify_deploy (env.verify 0) (repoSlug env.repo_url) (branchOf env)
          300 15).1.status = .no_checks ∨
       (verify_deploy (env.verify 0) (repoSlug env.repo_url) (branchOf env)
          300 15).1.status = .timeout) →
      (run_seo_pipeline env).status = .complete) := by
  constructor
  · intro venv slug branch maxWait p hp
    have hmain : (verify_deploy venv slug branch maxWait p).1.status
        ≠ VStatus.fuelOut := by
      unfold verify_deploy
      by_cases htok : ¬ venv.has_token = true
      · rw [if_pos htok]
        simp
      · rw [if_neg htok]
        exact verifyLoop_no_fuelOut venv slug branch maxWait p hp (maxWait + 1) 0
          false (by omega)
    refine ⟨hmain, ?_⟩
    cases hst : (verify_deploy venv slug branch maxWait p).1.status <;>
      simp_all
  · intro env audit plan h1 h2 h3 h4 h5 h6 h7 h8 h10
    unfold run_seo_pipeline
    rw [h1]
    rcases himp : implement_seo_changes env.impl_llm env.jparse_edits plan env.ws0
      with ⟨w1, trs⟩
    rw [himp] at h7 h8
    dsimp only at h7 h8
    rcases h8 with ⟨prRes, hok, hne⟩
    rcases hcr : create_seo_pr (prEnvOf env) w1 env.ws0 env.repo_url
        (branchOf env) env.base_branch plan env.domain with ⟨cres, prTr⟩
    rw [hcr] at hok
    simp only at hok
    subst hok
    rcases hv : verify_deploy (env.verify 0) (repoSlug env.repo_url)
        (branchOf env) 300 15 with ⟨dr0, vTr0⟩
    rw [hv] at h10
    simp only at h10
    cases haid : audit.audit_id <;>
      rcases h10 with h10 | h10 <;>
        simp [h2, h3, h4, h5, h6, h7, himp, hcr, hne, hv, h10, haid]

/-- Claim C7 witness: the classification theorem applied at a concrete
verifier environment and at a concrete run whose verifier finds no
checks. -/
theorem verify_deploy_terminates_witness :
    (0 : Nat) < 15 ∧
    (verify_deploy {} [] [] 300 15).1.status ≠ VStatus.fuelOut ∧
    (run_seo_pipeline envC7).status = .complete :=
  ⟨by decide,
   (verify_deploy_terminates_and_classifies.1 {} [] [] 300 15 (by decide)).1,
   verify_deploy_terminates_and_classifies.2 envC7 {} plan1 rfl rfl (by decide)
     (by decide) (by decide) rfl (by decide) ⟨_, rfl, by decide⟩
     (Or.inl (by decide))⟩

theorem commitLoop_total (env : PrEnv) (w : Workspace) (domain : Str) :
    ∀ (tiers : List Tier) (gs : GitState) (idx total : Nat),
      (commitLoop env w domain gs idx total tiers).2.1
        = total + committedPlannedSum env w gs.committed idx tiers := by
  intro tiers
  induction tiers with
  | nil =>
    intro gs idx total
    simp [commitLoop, committedPlannedSum]
  | cons t rest ih =>
    intro gs idx total
    unfold commitLoop committedPlannedSum
    by_cases hch : tierChanges t = []
    · rw [if_pos hch, if_pos hch]
      exact ih gs (idx + 1) total
    · rw [if_neg hch, if_neg hch]
      by_cases hdirty : w = gs.committed
      · rw [if_pos hdirty, if_pos hdirty]
        rcases hrec : commitLoop env w domain gs (idx + 1) total rest
          with ⟨gs2, tot2, tr⟩
        have := ih gs (idx + 1) total
        rw [hrec] at this
        simpa using this
      · rw [if_neg hdirty, if_neg hdirty]
        by_cases hcf : env.commit_fails idx
        · rw [if_pos hcf, if_pos hcf]
          rcases hrec : commitLoop env w domain gs (idx + 1) total rest
            with ⟨gs2, tot2, tr⟩
          have := ih gs (idx + 1) total
          rw [hrec] at this
          simpa using this
        · rw [if_neg hcf, if_neg hcf]
          rcases hrec : commitLoop env w domain
              ⟨w, gs.commits ++ [⟨tierCommitMsg t domain, w⟩]⟩
              (idx + 1) (total + (tierChanges t).length) rest
            with ⟨gs2, tot2, tr⟩
          have hih := ih ⟨w, gs.commits ++ [⟨tierCommitMsg t domain, w⟩]⟩
            (idx + 1) (total + (tierChanges t).length)
          rw [hrec] at hih
          dsimp only
          rw [hrec]
          simp only at hih ⊢
          omega

/-- Claim C10: whenever create_seo_pr succeeds, the changes_made count
it returns equals the sum of the planned-change counts of exactly those
tiers whose turn in the commit loop saw a non-empty change list, a dirty
working tree and a succeeding commit — a count of planned changes, not
of applied edits; at the concrete two-changes-one-applied environment
the persisted count is 2 while only 1 edit applied. -/
theorem changes_made_counts_planned_changes :
    (∀ (env : PrEnv) (w orig : Workspace) (repo branch base : Str) (plan : Plan)
       (domain : Str) (prRes : PrResult) (prTr : List Cmd),
      create_seo_pr env w orig repo branch base plan domain = (.ok prRes, prTr) →
      prRes.changes_made = committedPlannedSum env w orig 0 (planTiers plan)) ∧
    ((run_seo_pipeline envC10).changes_made = 2 ∧
      appliedSum (implement_seo_changes envC10.impl_llm envC10.jparse_edits
        plan2 envC10.ws0).2 = 1 ∧
      (run_seo_pipeline envC10).upds.filterMap (fun u => u.changes_made)
        = [1, 2]) := by
  constructor
  · intro env w orig repo branch base plan domain prRes prTr h
    unfold create_seo_pr at h
    by_cases hco : ¬ env.checkout_ok = true
    · rw [if_pos hco] at h
      simp at h
    · rw [if_neg hco] at h
      dsimp only at h
      rcases hloop : commitLoop env w domain { committed := orig, commits := [] }
          0 0 (planTiers plan) with ⟨gs, total, loopTr⟩
      rw [hloop] at h
      have htot := commitLoop_total env w domain (planTiers plan)
        { committed := orig, commits := [] } 0 0
      rw [hloop] at htot
      simp only [Nat.zero_add] at htot
      by_cases h0 : total = 0
      · rw [if_pos h0] at h
        simp only [Prod.mk.injEq, Except.ok.injEq] at h
        rw [← h.1]
        simp [← htot, h0]
      · rw [if_neg h0] at h
        by_cases hpush : ¬ env.push_ok = true
        · rw [if_pos hpush] at h
          simp only [Prod.mk.injEq, Except.ok.injEq] at h
          rw [← h.1]
          simpa using htot
        · rw [if_neg hpush] at h
          cases hpf : env.pr_first with
          | ok url =>
            rw [hpf] at h
            simp only [Prod.mk.injEq, Except.ok.injEq] at h
            rw [← h.1]
            simpa using htot
          | error stderr1 =>
            rw [hpf] at h
            dsimp only at h
            by_cases hlab : occursB ("label".data) (lowerS stderr1) = true
            · rw [if_pos hlab] at h
              cases hpr2 : env.pr_retry with
              | ok url =>
                rw [hpr2] at h
                simp only [Prod.mk.injEq, Except.ok.injEq] at h
                rw [← h.1]
                simpa using htot
              | error stderr2 =>
                rw [hpr2] at h
                simp only [Prod.mk.injEq, Except.ok.injEq] at h
                rw [← h.1]
                simpa using htot
            · rw [if_neg hlab] at h
              simp only [Prod.mk.injEq, Except.ok.injEq] at h
              rw [← h.1]
              simpa using htot
  · exact ⟨by decide, by decide, by decide⟩

/-- Claim C10 witness: the counting theorem applied to the concrete
two-changes environment, together with the same run's applied-edit
count. -/
theorem changes_made_counts_planned_changes_witness :
    (create_seo_pr prEnvC4 wsC4 envC4.ws0 envC4.repo_url (branchOf envC4)
        envC4.base_branch plan4 envC4.domain).1.map (fun r => r.changes_made)
      = .ok (committedPlannedSum prEnvC4 wsC4 envC4.ws0 0 (planTiers plan4)) := by
  rcases hcp : create_seo_pr prEnvC4 wsC4 envC4.ws0 envC4.repo_url
      (branchOf envC4) envC4.base_branch plan4 envC4.domain with ⟨cres, tr⟩
  cases cres with
  | error e =>
    have h1 : (create_seo_pr prEnvC4 wsC4 envC4.ws0 envC4.repo_url
        (branchOf envC4) envC4.base_branch plan4 envC4.domain).1
        = Except.error e := by rw [hcp]
    have h2 : ((create_seo_pr prEnvC4 wsC4 envC4.ws0 envC4.repo_url
        (branchOf envC4) envC4.base_branch plan4
        envC4.domain).1.toOption).isSome = true := by decide
    rw [h1] at h2
    simp [Except.toOption] at h2
  | ok prRes =>
    have hthm := changes_made_counts_planned_changes.1 prEnvC4 wsC4 envC4.ws0
      envC4.repo_url (branchOf envC4) envC4.base_branch plan4 envC4.domain
      prRes tr hcp
    simp [Except.map, hthm]

/-! Lemmas for the version-control safety claim. -/

theorem allowed_clone (r b br s : Str) : allowedAmended r b br s (cloneCmd r b) := by
  unfold allowedAmended claimC2Allowed; tauto

theorem allowed_checkout (r b br s : Str) :
    allowedAmended r b br s (["git".data, "checkout".data, "-b".data, br]) := by
  unfold allowedAmended claimC2Allowed; tauto

theorem allowed_status (r b br s : Str) :
    allowedAmended r b br s (cmdS ["git", "status", "--porcelain"]) := by
  unfold allowedAmended claimC2Allowed; tauto

theorem allowed_add (r b br s : Str) :
    allowedAmended r b br s (cmdS ["git", "add", "-A"]) := by
  unfold allowedAmended claimC2Allowed; tauto

theorem allowed_commit (r b br s m : Str) :
    allowedAmended r b br s (["git".data, "commit".data, "-m".data, m]) := by
  unfold allowedAmended claimC2Allowed
  exact Or.inl (Or.inr (Or.inr (Or.inr (Or.inl ⟨m, rfl⟩))))

theorem allowed_push (r b br s : Str) :
    allowedAmended r b br s (["git".data, "push".data, "origin".data, br]) := by
  unfold allowedAmended claimC2Allowed; tauto

theorem allowed_pr (r b br s t b2 : Str) :
    allowedAmended r b br s (prCreateCmd s t b2 b br) := by
  unfold allowedAmended claimC2Allowed
  exact Or.inl (Or.inr (Or.inr (Or.inr (Or.inr (Or.inr ⟨t, b2, rfl⟩)))))

theorem allowed_label (r b br s : Str) :
    allowedAmended r b br s (labelCmd s) := by
  unfold allowedAmended claimC2Allowed; tauto

theorem allowed_sha (r b br s : Str) :
    allowedAmended r b br s (shaCmd s br) := by
  unfold allowedAmended claimC2Allowed; tauto

theorem allowed_checkruns (r b br s sha : Str) :
    allowedAmended r b br s (checkRunsCmd s sha) := by
  unfold allowedAmended claimC2Allowed
  exact Or.inr (Or.inr (Or.inr (Or.inr (Or.inl ⟨sha, rfl⟩))))

theorem allowed_statuses (r b br s sha : Str) :
    allowedAmended r b br s (statusesCmd s sha) := by
  unfold allowedAmended claimC2Allowed
  exact Or.inr (Or.inr (Or.inr (Or.inr (Or.inr ⟨sha, rfl⟩))))

theorem allowedAmended_not_merge (r b br s : Str) (c : Cmd)
    (h : allowedAmended r b br s c) : isMergeCmd c = false := by
  rcases h with (h | h | h | ⟨m, h⟩ | h | ⟨t, b2, h⟩) | h | h | h | ⟨sha, h⟩ | ⟨sha, h⟩ <;>
    subst h <;>
      simp [isMergeCmd, cloneCmd, cmdS, prCreateCmd, labelCmd, shaCmd,
        checkRunsCmd, statusesCmd]

theorem commitLoop_trace_allowed (env : PrEnv) (w : Workspace) (domain : Str)
    (r b br s : Str) :
    ∀ (tiers : List Tier) (gs : GitState) (idx total : Nat),
      ∀ c ∈ (commitLoop env w domain gs idx total tiers).2.2,
        allowedAmended r b br s c := by
  intro tiers
  induction tiers with
  | nil =>
    intro gs idx total c hc
    simp [commitLoop] at hc
  | cons t rest ih =>
    intro gs idx total c hc
    unfold commitLoop at hc
    by_cases hch : tierChanges t = []
    · rw [if_pos hch] at hc
      exact ih gs (idx + 1) total c hc
    · rw [if_neg hch] at hc
      by_cases hdirty : w = gs.committed
      · rw [if_pos hdirty] at hc
        rcases hrec : commitLoop env w domain gs (idx + 1) total rest
          with ⟨gs2, tot2, tr⟩
        rw [hrec] at hc
        simp only at hc
        rcases List.mem_cons.mp hc with hc | hc
        · subst hc; exact allowed_status r b br s
        · refine ih gs (idx + 1) total c ?_
          rw [hrec]
          simpa using hc
      · rw [if_neg hdirty] at hc
        by_cases hcf : env.commit_fails idx
        · rw [if_pos hcf] at hc
          rcases hrec : commitLoop env w domain gs (idx + 1) total rest
            with ⟨gs2, tot2, tr⟩
          rw [hrec] at hc
          simp only at hc
          rcases List.mem_cons.mp hc with hc | hc
          · subst hc; exact allowed_status r b br s
          rcases List.mem_cons.mp hc with hc | hc
          · subst hc; exact allowed_add r b br s
          rcases List.mem_cons.mp hc with hc | hc
          · subst hc; exact allowed_commit r b br s _
          · refine ih gs (idx + 1) total c ?_
            rw [hrec]
            simpa using hc
        · rw [if_neg hcf] at hc
          dsimp only at hc
          rcases hrec : commitLoop env w domain
              ⟨w, gs.commits ++ [⟨tierCommitMsg t domain, w⟩]⟩
              (idx + 1) (total + (tierChanges t).length) rest
            with ⟨gs2, tot2, tr⟩
          rw [hrec] at hc
          simp only at hc
          rcases List.mem_cons.mp hc with hc | hc
          · subst hc; exact allowed_status r b br s
          rcases List.mem_cons.mp hc with hc | hc
          · subst hc; exact allowed_add r b br s
          rcases List.mem_cons.mp hc with hc | hc
          · subst hc; exact allowed_commit r b br s _
          · refine ih ⟨w, gs.commits ++ [⟨tierCommitMsg t domain, w⟩]⟩
              (idx + 1) (total + (tierChanges t).length) c ?_
            rw [hrec]
            simpa using hc

theorem create_seo_pr_trace_allowed (env : PrEnv) (w orig : Workspace)
    (repo branch base : Str) (plan : Plan) (domain : Str) :
    ∀ c ∈ (create_seo_pr env w orig repo branch base plan domain).2,
      allowedAmended repo base branch (repoSlug repo) c := by
  intro c hc
  unfold create_seo_pr at hc
  by_cases hco : ¬ env.checkout_ok = true
  · rw [if_pos hco] at hc
    simp at hc
    subst hc
    exact allowed_checkout repo base branch (repoSlug repo)
  · rw [if_neg hco] at hc
    dsimp only at hc
    rcases hloop : commitLoop env w domain ⟨orig, []⟩ 0 0 (planTiers plan)
      with ⟨gs, total, loopTr⟩
    rw [hloop] at hc
    have hloopA : ∀ c2 ∈ loopTr, allowedAmended repo base branch (repoSlug repo) c2 := by
      intro c2 hc2
      refine commitLoop_trace_allowed env w domain repo base branch (repoSlug repo)
        (planTiers plan) ⟨orig, []⟩ 0 0 c2 ?_
      rw [hloop]
      simpa using hc2
    by_cases h0 : total = 0
    · rw [if_pos h0] at hc
      simp only at hc
      rcases List.mem_cons.mp hc with hc | hc
      · subst hc; exact allowed_checkout repo base branch (repoSlug repo)
      · exact hloopA c hc
    · rw [if_neg h0] at hc
      by_cases hpush : ¬ env.push_ok = true
      · rw [if_pos hpush] at hc
        simp only at hc
        rcases List.mem_cons.mp hc with hc | hc
        · subst hc; exact allowed_checkout repo base branch (repoSlug repo)
        rcases List.mem_append.mp hc with hc | hc
        · exact hloopA c hc
        · simp at hc
          subst hc
          exact allowed_push repo base branch (repoSlug repo)
      · rw [if_neg hpush] at hc
        have hbase : ∀ c2 ∈ (["git".data, "checkout".data, "-b".data, branch] ::
            loopTr ++ [["git".data, "push".data, "origin".data, branch],
              prCreateCmd (repoSlug repo)
                ("[SEO] ".data ++ domain ++ ": Automated improvements (".data
                  ++ env.today ++ ")".data)
                (build_pr_body plan domain) base branch]),
            allowedAmended repo base branch (repoSlug repo) c2 := by
          intro c2 hc2
          rcases List.mem_cons.mp hc2 with hc2 | hc2
          · subst hc2; exact allowed_checkout repo base branch (repoSlug repo)
          rcases List.mem_append.mp hc2 with hc2 | hc2
          · exact hloopA c2 hc2
          rcases List.mem_cons.mp hc2 with hc2 | hc2
          · subst hc2; exact allowed_push repo base branch (repoSlug repo)
          · simp at hc2
            subst hc2
            exact allowed_pr repo base branch (repoSlug repo) _ _
        cases hpf : env.pr_first with
        | ok url =>
          rw [hpf] at hc
          exact hbase c hc
        | error stderr1 =>
          rw [hpf] at hc
          dsimp only at hc
          by_cases hlab : occursB ("label".data) (lowerS stderr1) = true
          · rw [if_pos hlab] at hc
            cases hpr2 : env.pr_retry with
            | ok url =>
              rw [hpr2] at hc
              rcases List.mem_append.mp hc with hc | hc
              · exact hbase c hc
              rcases List.mem_cons.mp hc with hc | hc
              · subst hc; exact allowed_label repo base branch (repoSlug repo)
              · simp at hc
                subst hc
                exact allowed_pr repo base branch (repoSlug repo) _ _
            | error stderr2 =>
              rw [hpr2] at hc
              rcases List.mem_append.mp hc with hc | hc
              · exact hbase c hc
              rcases List.mem_cons.mp hc with hc | hc
              · subst hc; exact allowed_label repo base branch (repoSlug repo)
              · simp at hc
                subst hc
                exact allowed_pr repo base branch (repoSlug repo) _ _
          · rw [if_neg hlab] at hc
            exact hbase c hc

theorem verifyLoop_trace_allowed (env : VerifyEnv) (slug branch : Str)
    (maxWait p : Nat) (r b : Str) :
    ∀ (fuel iter : Nat) (lastSt : Bool),
      ∀ c ∈ (verifyLoop env slug branch maxWait p fuel iter lastSt).2,
        allowedAmended r b branch slug c := by
  intro fuel
  induction fuel with
  | zero =>
    intro iter lastSt c hc
    simp [verifyLoop] at hc
  | succ n ih =>
    intro iter lastSt c hc
    unfold verifyLoop at hc
    by_cases hel : iter * p < maxWait
    · rw [if_pos hel] at hc
      cases hsha : (env.rounds iter).sha with
      | error e =>
        simp only [hsha] at hc
        simp at hc
        subst hc
        exact allowed_sha r b branch slug
      | ok sha =>
        simp only [hsha] at hc
        by_cases hempty : sha = []
        · rw [if_pos hempty] at hc
          simp at hc
          subst hc
          exact allowed_sha r b branch slug
        · rw [if_neg hempty] at hc
          cases hcr : (env.rounds iter).check_runs with
          | none =>
            simp only [hcr] at hc
            try dsimp only at hc
            rcases List.mem_append.mp hc with hc | hc
            · rcases List.mem_cons.mp hc with hc | hc
              · subst hc; exact allowed_sha r b branch slug
              · simp at hc; subst hc; exact allowed_checkruns r b branch slug sha
            · exact ih (iter + 1) lastSt c hc
          | some crs =>
            simp only [hcr] at hc
            cases hdc : findDeployCheck crs with
            | none =>
              simp only [hdc] at hc
              cases hfs : (env.rounds iter).statuses.bind findDeployStatus with
              | some st =>
                simp only [hfs] at hc
                by_cases hsu : st.state = "success".data
                · rw [if_pos hsu] at hc
                  try dsimp only at hc
                  rcases List.mem_append.mp hc with hc | hc
                  · rcases List.mem_cons.mp hc with hc | hc
                    · subst hc; exact allowed_sha r b branch slug
                    · simp at hc; subst hc
                      exact allowed_checkruns r b branch slug sha
                  · simp at hc; subst hc
                    exact allowed_statuses r b branch slug sha
                · rw [if_neg hsu] at hc
                  by_cases hfe : st.state = "failure".data ∨ st.state = "error".data
                  · rw [if_pos hfe] at hc
                    try dsimp only at hc
                    rcases List.mem_append.mp hc with hc | hc
                    · rcases List.mem_cons.mp hc with hc | hc
                      · subst hc; exact allowed_sha r b branch slug
                      · simp at hc; subst hc
                        exact allowed_checkruns r b branch slug sha
                    · simp at hc; subst hc
                      exact allowed_statuses r b branch slug sha
                  · rw [if_neg hfe] at hc
                    by_cases hgr : ¬ (st.state ≠ []) ∧ iter * p > 60
                    · rw [if_pos hgr] at hc
                      try dsimp only at hc
                      rcases List.mem_append.mp hc with hc | hc
                      · rcases List.mem_cons.mp hc with hc | hc
                        · subst hc; exact allowed_sha r b branch slug
                        · simp at hc; subst hc
                          exact allowed_checkruns r b branch slug sha
                      · simp at hc; subst hc
                        exact allowed_statuses r b branch slug sha
                    · rw [if_neg hgr] at hc
                      try dsimp only at hc
                      rcases List.mem_append.mp hc with hc | hc
                      · rcases List.mem_append.mp hc with hc | hc
                        · rcases List.mem_cons.mp hc with hc | hc
                          · subst hc; exact allowed_sha r b branch slug
                          · simp at hc; subst hc
                            exact allowed_checkruns r b branch slug sha
                        · simp at hc; subst hc
                          exact allowed_statuses r b branch slug sha
                      · exact ih (iter + 1) _ c hc
              | none =>
                simp only [hfs] at hc
                by_cases hgr : ¬ lastSt = true ∧ iter * p > 60
                · rw [if_pos hgr] at hc
                  try dsimp only at hc
                  rcases List.mem_append.mp hc with hc | hc
                  · rcases List.mem_cons.mp hc with hc | hc
                    · subst hc; exact allowed_sha r b branch slug
                    · simp at hc; subst hc
                      exact allowed_checkruns r b branch slug sha
                  · simp at hc; subst hc
                    exact allowed_statuses r b branch slug sha
                · rw [if_neg hgr] at hc
                  try dsimp only at hc
                  rcases List.mem_append.mp hc with hc | hc
                  · rcases List.mem_append.mp hc with hc | hc
                    · rcases List.mem_cons.mp hc with hc | hc
                      · subst hc; exact allowed_sha r b branch slug
                      · simp at hc; subst hc
                        exact allowed_checkruns r b branch slug sha
                    · simp at hc; subst hc
                      exact allowed_statuses r b branch slug sha
                  · exact ih (iter + 1) lastSt c hc
            | some dc =>
              simp only [hdc] at hc
              by_cases hcomp : dc.status = "completed".data
              · rw [if_pos hcomp] at hc
                by_cases hconc : dc.conclusion = "success".data
                · rw [if_pos hconc] at hc
                  try dsimp only at hc
                  rcases List.mem_cons.mp hc with hc | hc
                  · subst hc; exact allowed_sha r b branch slug
                  · simp at hc; subst hc
                    exact allowed_checkruns r b branch slug sha
                · rw [if_neg hconc] at hc
                  try dsimp only at hc
                  rcases List.mem_cons.mp hc with hc | hc
                  · subst hc; exact allowed_sha r b branch slug
                  · simp at hc; subst hc
                    exact allowed_checkruns r b branch slug sha
              · rw [if_neg hcomp] at hc
                try dsimp only at hc
                rcases List.mem_append.mp hc with hc | hc
                · rcases List.mem_cons.mp hc with hc | hc
                  · subst hc; exact allowed_sha r b branch slug
                  · simp at hc; subst hc
                    exact allowed_checkruns r b branch slug sha
                · exact ih (iter + 1) _ c hc
    · rw [if_neg hel] at hc
      simp at hc

theorem verify_deploy_trace_allowed (env : VerifyEnv) (slug branch : Str)
    (maxWait p : Nat) (r b : Str) :
    ∀ c ∈ (verify_deploy env slug branch maxWait p).2,
      allowedAmended r b branch slug c := by
  intro c hc
  unfold verify_deploy at hc
  by_cases ht : ¬ env.has_token = true
  · rw [if_pos ht] at hc
    simp at hc
  · rw [if_neg ht] at hc
    exact verifyLoop_trace_allowed env slug branch maxWait p r b
      (maxWait + 1) 0 false c hc

theorem heal_build_trace_allowed (llm : Except Str Str)
    (jp : Str → Option (List Edit)) (cf : Bool) (cs : Str) (po : Bool)
    (ps : Str) (w : Workspace) (gs : GitState) (branch : Str) (r b s : Str) :
    ∀ c ∈ (heal_build llm jp cf cs po ps w gs branch).2.2.2,
      allowedAmended r b branch s c := by
  intro c hc
  unfold heal_build at hc
  by_cases h1 : diagnose_and_fix_build llm jp = []
  · rw [if_pos h1] at hc
    simp at hc
  · rw [if_neg h1] at hc
    try dsimp only at hc
    rcases happ : applyEditsFold w (diagnose_and_fix_build llm jp)
      with ⟨w2, applied, errs⟩
    rw [happ] at hc
    try dsimp only at hc
    by_cases h2 : applied = 0
    · rw [if_pos h2] at hc
      simp at hc
    · rw [if_neg h2] at hc
      by_cases h3 : w2 = gs.committed ∨ cf = true
      · rw [if_pos h3] at hc
        rcases List.mem_cons.mp hc with hc | hc
        · subst hc; exact allowed_add r b branch s
        · simp at hc; subst hc; exact allowed_commit r b branch s _
      · rw [if_neg h3] at hc
        by_cases h4 : ¬ po = true
        · rw [if_pos h4] at hc
          rcases List.mem_cons.mp hc with hc | hc
          · subst hc; exact allowed_add r b branch s
          rcases List.mem_cons.mp hc with hc | hc
          · subst hc; exact allowed_commit r b branch s _
          · simp at hc; subst hc; exact allowed_push r b branch s
        · rw [if_neg h4] at hc
          rcases List.mem_cons.mp hc with hc | hc
          · subst hc; exact allowed_add r b branch s
          rcases List.mem_cons.mp hc with hc | hc
          · subst hc; exact allowed_commit r b branch s _
          · simp at hc; subst hc; exact allowed_push r b branch s

theorem heal_go_trace_allowed (env : PipeEnv) (slug branch : Str) (r b : Str) :
    ∀ (attempts : List Nat) (w : Workspace) (gs : GitState) (dr : VerifyResult),
      ∀ c ∈ (heal_go env slug branch w gs dr attempts).trace,
        allowedAmended r b branch slug c := by
  intro attempts
  induction attempts with
  | nil =>
    intro w gs dr c hc
    simp [heal_go] at hc
  | cons attempt rest ih =>
    intro w gs dr c hc
    unfold heal_go at hc
    try dsimp only at hc
    rcases hhb : heal_build (env.heal_llm attempt) env.jparse_edits
        (env.heal_commit_fails attempt) (env.heal_commit_stderr attempt)
        (env.heal_push_ok attempt) (env.heal_push_stderr attempt) w gs branch
      with ⟨hr, w2, gs2, hTr⟩
    rw [hhb] at hc
    try dsimp only at hc
    have hTrA : ∀ c2 ∈ hTr, allowedAmended r b branch slug c2 := by
      intro c2 hc2
      refine heal_build_trace_allowed (env.heal_llm attempt) env.jparse_edits
        (env.heal_commit_fails attempt) (env.heal_commit_stderr attempt)
        (env.heal_push_ok attempt) (env.heal_push_stderr attempt) w gs branch
        r b slug c2 ?_
      rw [hhb]
      exact hc2
    by_cases hh : hr.healed = false
    · rw [if_pos hh] at hc
      by_cases hlast : attempt = maxHealAttempts
      · rw [if_pos hlast] at hc
        exact hTrA c hc
      · rw [if_neg hlast] at hc
        try dsimp only at hc
        rcases List.mem_append.mp hc with hc | hc
        · exact hTrA c hc
        · exact ih w2 gs2 dr c hc
    · rw [if_neg hh] at hc
      rcases hvd : verify_deploy (env.verify attempt) slug branch 300 15
        with ⟨dr2, vTr⟩
      rw [hvd] at hc
      try dsimp only at hc
      have hvTrA : ∀ c2 ∈ vTr, allowedAmended r b branch slug c2 := by
        intro c2 hc2
        refine verify_deploy_trace_allowed (env.verify attempt) slug branch
          300 15 r b c2 ?_
        rw [hvd]
        exact hc2
      cases hst : dr2.status with
      | success =>
        rw [hst] at hc
        try dsimp only at hc
        rcases List.mem_append.mp hc with hc | hc
        · exact hTrA c hc
        · exact hvTrA c hc
      | no_checks =>
        rw [hst] at hc
        try dsimp only at hc
        rcases List.mem_append.mp hc with hc | hc
        · exact hTrA c hc
        · exact hvTrA c hc
      | timeout =>
        rw [hst] at hc
        try dsimp only at hc
        rcases List.mem_append.mp hc with hc | hc
        · exact hTrA c hc
        · exact hvTrA c hc
      | failed =>
        rw [hst] at hc
        try dsimp only at hc
        rcases List.mem_append.mp hc with hc | hc
        · rcases List.mem_append.mp hc with hc | hc
          · exact hTrA c hc
          · exact hvTrA c hc
        · exact ih w2 gs2 dr2 c hc
      | fuelOut =>
        rw [hst] at hc
        try dsimp only at hc
        rcases List.mem_append.mp hc with hc | hc
        · rcases List.mem_append.mp hc with hc | hc
          · exact hTrA c hc
          · exact hvTrA c hc
        · exact ih w2 gs2 dr2 c hc

/-- Claim C2 (amended): every subprocess argument vector any pipeline run
issues belongs to the amended allowed set — the claim's enumerated
interactions (clone, branch creation, staging, commit, push of the run's
branch, opening the review request) plus working-tree status inspection,
provisioning of the review label, and read-only gh api queries — and in
particular no run ever issues a merge, rebase, pull or pull-request
merge. -/
theorem vcs_interactions_allowed (env : PipeEnv) :
    ∀ c ∈ (run_seo_pipeline env).trace,
      allowedAmended env.repo_url env.base_branch (branchOf env)
        (repoSlug env.repo_url) c ∧ isMergeCmd c = false := by
  intro c hc
  suffices hall : allowedAmended env.repo_url env.base_branch (branchOf env)
      (repoSlug env.repo_url) c from
    ⟨hall, allowedAmended_not_merge env.repo_url env.base_branch (branchOf env)
      (repoSlug env.repo_url) c hall⟩
  unfold run_seo_pipeline at hc
  cases haud : env.audit with
  | error e =>
    simp only [haud] at hc
    simp at hc
  | ok audit =>
    simp only [haud] at hc
    cases herr : audit.err with
    | some ae =>
      simp only [herr] at hc
      simp at hc
    | none =>
      simp only [herr] at hc
      cases haid : audit.audit_id with
      | some aid =>
        simp only [haid] at hc
        cases han : analyze_seo_issues env.analyze_llm env.jparse_plan audit
            (riOf env) with
        | error e =>
          simp only [han] at hc
          simp at hc
        | ok plan =>
          simp only [han] at hc
          by_cases hperr : planErrTruthy plan = true
          · rw [if_pos hperr] at hc
            simp at hc
          · rw [if_neg hperr] at hc
            by_cases htp : totalPlannedChanges plan = 0
            · rw [if_pos htp] at hc
              simp at hc
            · rw [if_neg htp] at hc
              cases hcl : env.clone_ok with
              | error e =>
                simp only [hcl] at hc
                simp at hc
                subst hc
                exact allowed_clone env.repo_url env.base_branch
                  (branchOf env) (repoSlug env.repo_url)
              | ok u =>
                simp only [hcl] at hc
                rcases himp : implement_seo_changes env.impl_llm env.jparse_edits
                    plan env.ws0 with ⟨w1, trs⟩
                rw [himp] at hc
                try dsimp only at hc
                by_cases happ : appliedSum trs = 0
                · rw [if_pos happ] at hc
                  simp at hc
                  subst hc
                  exact allowed_clone env.repo_url env.base_branch
                    (branchOf env) (repoSlug env.repo_url)
                · rw [if_neg happ] at hc
                  rcases hcr : create_seo_pr (prEnvOf env) w1 env.ws0 env.repo_url
                      (branchOf env) env.base_branch plan env.domain
                    with ⟨cres, prTr⟩
                  rw [hcr] at hc
                  try dsimp only at hc
                  have hprA : ∀ c2 ∈ prTr,
                      allowedAmended env.repo_url env.base_branch (branchOf env)
                        (repoSlug env.repo_url) c2 := by
                    intro c2 hc2
                    refine create_seo_pr_trace_allowed (prEnvOf env) w1 env.ws0
                      env.repo_url (branchOf env) env.base_branch plan env.domain
                      c2 ?_
                    rw [hcr]
                    exact hc2
                  cases cres with
                  | error e =>
                    simp only [List.mem_append, List.mem_singleton] at hc
                    rcases hc with hc | hc
                    · subst hc
                      exact allowed_clone env.repo_url env.base_branch
                        (branchOf env) (repoSlug env.repo_url)
                    · exact hprA c hc
                  | ok prRes =>
                    try dsimp only at hc
                    by_cases hpe : prRes.error ≠ [] ∧ prRes.pr_url = []
                    · rw [if_pos hpe] at hc
                      simp only [List.mem_append, List.mem_singleton] at hc
                      rcases hc with hc | hc
                      · subst hc
                        exact allowed_clone env.repo_url env.base_branch
                          (branchOf env) (repoSlug env.repo_url)
                      · exact hprA c hc
                    · rw [if_neg hpe] at hc
                      rcases hv : verify_deploy (env.verify 0)
                          (repoSlug env.repo_url) (branchOf env) 300 15
                        with ⟨dr0, vTr0⟩
                      rw [hv] at hc
                      try dsimp only at hc
                      have hvA : ∀ c2 ∈ vTr0,
                          allowedAmended env.repo_url env.base_branch
                            (branchOf env) (repoSlug env.repo_url) c2 := by
                        intro c2 hc2
                        refine verify_deploy_trace_allowed (env.verify 0)
                          (repoSlug env.repo_url) (branchOf env) 300 15
                          env.repo_url env.base_branch c2 ?_
                        rw [hv]
                        exact hc2
                      have hclA : c ∈ ([cloneCmd env.repo_url env.base_branch]
                            ++ prTr ++ vTr0 : List Cmd) →
                          allowedAmended env.repo_url env.base_branch
                            (branchOf env) (repoSlug env.repo_url) c := by
                        intro hm
                        simp only [List.mem_append, List.mem_singleton] at hm
                        rcases hm with (hm | hm) | hm
                        · subst hm
                          exact allowed_clone env.repo_url env.base_branch
                            (branchOf env) (repoSlug env.repo_url)
                        · exact hprA c hm
                        · exact hvA c hm
                      cases hst : dr0.status with
                      | success =>
                        simp only [hst] at hc
                        exact hclA hc
                      | no_checks =>
                        simp only [hst] at hc
                        exact hclA hc
                      | timeout =>
                        simp only [hst] at hc
                        exact hclA hc
                      | failed =>
                        simp only [hst] at hc
                        try dsimp only at hc
                        rcases List.mem_append.mp hc with hc | hc
                        · exact hclA hc
                        · exact heal_go_trace_allowed env (repoSlug env.repo_url)
                            (branchOf env) env.repo_url env.base_branch
                            (List.range' 1 maxHealAttempts) w1 prRes.git dr0 c hc
                      | fuelOut =>
                        simp only [hst] at hc
                        try dsimp only at hc
                        rcases List.mem_append.mp hc with hc | hc
                        · exact hclA hc
                        · exact heal_go_trace_allowed env (repoSlug env.repo_url)
                            (branchOf env) env.repo_url env.base_branch
                            (List.range' 1 maxHealAttempts) w1 prRes.git dr0 c hc
      | none =>
        simp only [haid] at hc
        cases han : analyze_seo_issues env.analyze_llm env.jparse_plan audit
            (riOf env) with
        | error e =>
          simp only [han] at hc
          simp at hc
        | ok plan =>
          simp only [han] at hc
          by_cases hperr : planErrTruthy plan = true
          · rw [if_pos hperr] at hc
            simp at hc
          · rw [if_neg hperr] at hc
            by_cases htp : totalPlannedChanges plan = 0
            · rw [if_pos htp] at hc
              simp at hc
            · rw [if_neg htp] at hc
              cases hcl : env.clone_ok with
              | error e =>
                simp only [hcl] at hc
                simp at hc
                subst hc
                exact allowed_clone env.repo_url env.base_branch
                  (branchOf env) (repoSlug env.repo_url)
              | ok u =>
                simp only [hcl] at hc
                rcases himp : implement_seo_changes env.impl_llm env.jparse_edits
                    plan env.ws0 with ⟨w1, trs⟩
                rw [himp] at hc
                try dsimp only at hc
                by_cases happ : appliedSum trs = 0
                · rw [if_pos happ] at hc
                  simp at hc
                  subst hc
                  exact allowed_clone env.repo_url env.base_branch
                    (branchOf env) (repoSlug env.repo_url)
                · rw [if_neg happ] at hc
                  rcases hcr : create_seo_pr (prEnvOf env) w1 env.ws0 env.repo_url
                      (branchOf env) env.base_branch plan env.domain
                    with ⟨cres, prTr⟩
                  rw [hcr] at hc
                  try dsimp only at hc
                  have hprA : ∀ c2 ∈ prTr,
                      allowedAmended env.repo_url env.base_branch (branchOf env)
                        (repoSlug env.repo_url) c2 := by
                    intro c2 hc2
                    refine create_seo_pr_trace_allowed (prEnvOf env) w1 env.ws0
                      env.repo_url (branchOf env) env.base_branch plan env.domain
                      c2 ?_
                    rw [hcr]
                    exact hc2
                  cases cres with
                  | error e =>
                    simp only [List.mem_append, List.mem_singleton] at hc
                    rcases hc with hc | hc
                    · subst hc
                      exact allowed_clone env.repo_url env.base_branch
                        (branchOf env) (repoSlug env.repo_url)
                    · exact hprA c hc
                  | ok prRes =>
                    try dsimp only at hc
                    by_cases hpe : prRes.error ≠ [] ∧ prRes.pr_url = []
                    · rw [if_pos hpe] at hc
                      simp only [List.mem_append, List.mem_singleton] at hc
                      rcases hc with hc | hc
                      · subst hc
                        exact allowed_clone env.repo_url env.base_branch
                          (branchOf env) (repoSlug env.repo_url)
                      · exact hprA c hc
                    · rw [if_neg hpe] at hc
                      rcases hv : verify_deploy (env.verify 0)
                          (repoSlug env.repo_url) (branchOf env) 300 15
                        with ⟨dr0, vTr0⟩
                      rw [hv] at hc
                      try dsimp only at hc
                      have hvA : ∀ c2 ∈ vTr0,
                          allowedAmended env.repo_url env.base_branch
                            (branchOf env) (repoSlug env.repo_url) c2 := by
                        intro c2 hc2
                        refine verify_deploy_trace_allowed (env.verify 0)
                          (repoSlug env.repo_url) (branchOf env) 300 15
                          env.repo_url env.base_branch c2 ?_
                        rw [hv]
                        exact hc2
                      have hclA : c ∈ ([cloneCmd env.repo_url env.base_branch]
                            ++ prTr ++ vTr0 : List Cmd) →
                          allowedAmended env.repo_url env.base_branch
                            (branchOf env) (repoSlug env.repo_url) c := by
                        intro hm
                        simp only [List.mem_append, List.mem_singleton] at hm
                        rcases hm with (hm | hm) | hm
                        · subst hm
                          exact allowed_clone env.repo_url env.base_branch
                            (branchOf env) (repoSlug env.repo_url)
                        · exact hprA c hm
                        · exact hvA c hm
                      cases hst : dr0.status with
                      | success =>
                        simp only [hst] at hc
                        exact hclA hc
                      | no_checks =>
                        simp only [hst] at hc
                        exact hclA hc
                      | timeout =>
                        simp only [hst] at hc
                        exact hclA hc
                      | failed =>
                        simp only [hst] at hc
                        try dsimp only at hc
                        rcases List.mem_append.mp hc with hc | hc
                        · exact hclA hc
                        · exact heal_go_trace_allowed env (repoSlug env.repo_url)
                            (branchOf env) env.repo_url env.base_branch
                            (List.range' 1 maxHealAttempts) w1 prRes.git dr0 c hc
                      | fuelOut =>
                        simp only [hst] at hc
                        try dsimp only at hc
                        rcases List.mem_append.mp hc with hc | hc
                        · exact hclA hc
                        · exact heal_go_trace_allowed env (repoSlug env.repo_url)
                            (branchOf env) env.repo_url env.base_branch
                            (List.range' 1 maxHealAttempts) w1 prRes.git dr0 c hc

theorem vcs_interactions_allowed_witness :
    cloneCmd envHeal.repo_url envHeal.base_branch
        ∈ (run_seo_pipeline envHeal).trace ∧
      (allowedAmended envHeal.repo_url envHeal.base_branch (branchOf envHeal)
          (repoSlug envHeal.repo_url)
          (cloneCmd envHeal.repo_url envHeal.base_branch) ∧
        isMergeCmd (cloneCmd envHeal.repo_url envHeal.base_branch) = false) :=
  ⟨by decide,
   vcs_interactions_allowed envHeal
     (cloneCmd envHeal.repo_url envHeal.base_branch) (by decide)⟩

/-- Claim C2, counterexample to the enumerated interaction list: when the
first pull-request creation fails with a label-related error, the
pipeline issues a gh label create invocation, which is none of clone,
branch creation, staging, commit, push, or opening the review
request. -/
theorem vcs_label_create_counterexample :
    labelCmd (repoSlug envLabel.repo_url) ∈ (run_seo_pipeline envLabel).trace ∧
    ¬ claimC2Allowed envLabel.repo_url envLabel.base_branch (branchOf envLabel)
        (repoSlug envLabel.repo_url) (labelCmd (repoSlug envLabel.repo_url)) := by
  constructor
  · decide
  · intro h
    rcases h with h | h | h | ⟨m, h⟩ | h | ⟨t, b2, h⟩
    · exact absurd h (by decide)
    · exact absurd h (by decide)
    · exact absurd h (by decide)
    · have hl := congrArg List.length h
      simp [labelCmd] at hl
    · exact absurd h (by decide)
    · have hl := congrArg List.length h
      simp [labelCmd, prCreateCmd] at hl

end SeoPipeline
